import Mathlib

/-!
Verification of the diff-rendering and smooth-streaming logic of OpenCodeUI.

The TypeScript sources embedded here are `src/components/DiffModal.tsx`
(`computePairedLines`, `computeUnifiedLines`, `computeWordDiff`,
`extractContentFromUnifiedDiff`, `escapeHtml`) and
`src/hooks/useSmoothStream.ts` (`useSmoothStream`).

Strings are modelled as `List Char`; JavaScript `split('\n')`, `slice`,
`startsWith`, `trimEnd` are modelled by executable list functions below.
The external `diff` npm package (`diffLines`, `diffWords`) is out of scope
and is modelled at its interface: functions producing hunk/segment lists,
constrained by validity predicates stating the defining reconstruction
property of a diff.
-/

-- ============================================
-- Data model (DiffModal.tsx)
-- ============================================

/-- `type LineType = 'add' | 'delete' | 'context' | 'empty'` -/
inductive LineType where
  | add
  | delete
  | context
  | empty
  deriving DecidableEq, Repr

/-- `interface DiffLine { type, content, lineNo?, highlightedContent? }` -/
structure DiffLine where
  type : LineType
  content : List Char
  lineNo : Option Nat := none
  highlightedContent : Option (List Char) := none
  deriving DecidableEq, Repr

/-- `interface PairedLine { left: DiffLine; right: DiffLine }` -/
structure PairedLine where
  left : DiffLine
  right : DiffLine
  deriving DecidableEq, Repr

/-- `interface UnifiedLine extends DiffLine { oldLineNo?, newLineNo? }` -/
structure UnifiedLine where
  type : LineType
  content : List Char
  oldLineNo : Option Nat := none
  newLineNo : Option Nat := none
  deriving DecidableEq, Repr

/-- A change hunk as returned by the external `diffLines` primitive:
`{added: bool, removed: bool, count: int}`; unchanged hunks have both
flags false.  The `value` field is unused by the embedded functions. -/
inductive Hunk where
  | removed (count : Nat)
  | added (count : Nat)
  | unchanged (count : Nat)
  deriving DecidableEq, Repr

/-- Kind of a word-diff segment from the external `diffWords` primitive. -/
inductive SegKind where
  | added
  | removed
  | unchanged
  deriving DecidableEq, Repr

/-- A word-diff segment `{value, added?, removed?}`. -/
structure WordSeg where
  value : List Char
  kind : SegKind
  deriving DecidableEq, Repr

-- ============================================
-- String helpers (JavaScript semantics)
-- ============================================

/-- JavaScript `s.split('\n')`: always returns at least one (possibly
empty) chunk; a trailing newline yields a trailing empty chunk. -/
def splitNl (s : List Char) : List (List Char) :=
  s.foldr
    (fun c r =>
      if c = '\n' then [] :: r
      else
        match r with
        | [] => [[c]]
        | l :: ls => (c :: l) :: ls)
    [[]]

/-- JavaScript `line.startsWith(p)` for a literal prefix `p`. -/
def startsWithL (p : String) (l : List Char) : Bool :=
  p.data.isPrefixOf l

/-- JavaScript `String.prototype.replace(/t/g, repl)` for a single-character
pattern `t`: every occurrence of `t` is replaced by `repl`. -/
def replaceAll (target : Char) (repl : List Char) (s : List Char) : List Char :=
  s.flatMap (fun c => if c = target then repl else [c])

/-- `escapeHtml` from DiffModal.tsx: replace `&`, then `<`, then `>`. -/
def escapeHtml (s : List Char) : List Char :=
  replaceAll '>' "&gt;".data (replaceAll '<' "&lt;".data (replaceAll '&' "&amp;".data s))

/-- JavaScript `s.trimEnd()` (restricted to ASCII whitespace). -/
def trimEnd (l : List Char) : List Char :=
  (l.reverse.dropWhile Char.isWhitespace).reverse

-- ============================================
-- computeWordDiff (DiffModal.tsx lines 459-479)
-- ============================================

/-- The deletion marker opening tag emitted by `computeWordDiff`. -/
def markRemoved : List Char :=
  "<mark class=\"bg-danger-100/40 text-inherit rounded-sm px-0.5\">".data

/-- The insertion marker opening tag emitted by `computeWordDiff`. -/
def markAdded : List Char :=
  "<mark class=\"bg-success-100/40 text-inherit rounded-sm px-0.5\">".data

/-- The marker closing tag emitted by `computeWordDiff`. -/
def markEnd : List Char := "</mark>".data

/-- `computeWordDiff`, as a function of the segment list returned by the
external `diffWords` primitive.  Removed segments are wrapped in the
deletion marker on the left, added segments in the insertion marker on the
right, unchanged segments appear on both sides; all text is escaped. -/
def computeWordDiff (changes : List WordSeg) : List Char × List Char :=
  changes.foldl
    (fun acc change =>
      let escaped := escapeHtml change.value
      match change.kind with
      | .removed => (acc.1 ++ markRemoved ++ escaped ++ markEnd, acc.2)
      | .added => (acc.1, acc.2 ++ markAdded ++ escaped ++ markEnd)
      | .unchanged => (acc.1 ++ escaped, acc.2 ++ escaped))
    ([], [])

-- ============================================
-- computePairedLines (DiffModal.tsx lines 328-409)
-- ============================================

/-- The empty placeholder cell `{ type: 'empty', content: '' }`. -/
def emptyCell : DiffLine := { type := .empty, content := [] }

/-- A row of the combined removed/added unit (source lines 349-368):
the old line when j < count else empty, the new line when j < addCount
else empty, with word-level highlights when both are present. -/
def pairRow (dw : List Char → List Char → List WordSeg)
    (beforeLines afterLines : List (List Char))
    (oldIdx newIdx count addCount j : Nat) : PairedLine :=
  let oldLine := if j < count then beforeLines[oldIdx + j]? else none
  let newLine := if j < addCount then afterLines[newIdx + j]? else none
  let hl : Option (List Char × List Char) :=
    match oldLine, newLine with
    | some o, some n => some (computeWordDiff (dw o n))
    | _, _ => none
  { left :=
      match oldLine with
      | some o =>
          { type := .delete, content := o, lineNo := some (oldIdx + j + 1),
            highlightedContent := hl.map Prod.fst }
      | none => emptyCell
    right :=
      match newLine with
      | some n =>
          { type := .add, content := n, lineNo := some (newIdx + j + 1),
            highlightedContent := hl.map Prod.snd }
      | none => emptyCell }

/-- A standalone removed row (source lines 377-381). -/
def removedRow (beforeLines : List (List Char)) (oldIdx j : Nat) : PairedLine :=
  { left := { type := .delete, content := (beforeLines[oldIdx + j]?).getD [],
              lineNo := some (oldIdx + j + 1) }
    right := emptyCell }

/-- A standalone added row (source lines 386-390). -/
def addedRow (afterLines : List (List Char)) (newIdx j : Nat) : PairedLine :=
  { left := emptyCell
    right := { type := .add, content := (afterLines[newIdx + j]?).getD [],
               lineNo := some (newIdx + j + 1) } }

/-- A context row (source lines 395-398). -/
def contextRow (beforeLines afterLines : List (List Char))
    (oldIdx newIdx j : Nat) : PairedLine :=
  { left := { type := .context, content := (beforeLines[oldIdx + j]?).getD [],
              lineNo := some (oldIdx + j + 1) }
    right := { type := .context, content := (afterLines[newIdx + j]?).getD [],
               lineNo := some (newIdx + j + 1) } }

/-- The hunk-walking loop of `computePairedLines`, with the two line
cursors explicit.  `dw` is the external `diffWords` primitive. -/
def pairedGo (dw : List Char → List Char → List WordSeg) :
    List Hunk → Nat → Nat → List (List Char) → List (List Char) → List PairedLine
  | [], _, _, _, _ => []
  | .removed count :: .added addCount :: rest2, oldIdx, newIdx, beforeLines, afterLines =>
      ((List.range (max count addCount)).map
        (pairRow dw beforeLines afterLines oldIdx newIdx count addCount)) ++
      pairedGo dw rest2 (oldIdx + count) (newIdx + addCount) beforeLines afterLines
  | .removed count :: rest, oldIdx, newIdx, beforeLines, afterLines =>
      ((List.range count).map (removedRow beforeLines oldIdx)) ++
      pairedGo dw rest (oldIdx + count) newIdx beforeLines afterLines
  | .added count :: rest, oldIdx, newIdx, beforeLines, afterLines =>
      ((List.range count).map (addedRow afterLines newIdx)) ++
      pairedGo dw rest oldIdx (newIdx + count) beforeLines afterLines
  | .unchanged count :: rest, oldIdx, newIdx, beforeLines, afterLines =>
      ((List.range count).map (contextRow beforeLines afterLines oldIdx newIdx)) ++
      pairedGo dw rest (oldIdx + count) (newIdx + count) beforeLines afterLines

/-- `computePairedLines`, parametrised by the external `diffLines` (`dl`)
and `diffWords` (`dw`) primitives. -/
def computePairedLines (dl : List Char → List Char → List Hunk)
    (dw : List Char → List Char → List WordSeg)
    (before after : List Char) : List PairedLine :=
  pairedGo dw (dl before after) 0 0 (splitNl before) (splitNl after)

-- ============================================
-- computeUnifiedLines (DiffModal.tsx lines 411-457)
-- ============================================

/-- A unified delete line (source lines 425-431). -/
def uDeleteRow (beforeLines : List (List Char)) (oldIdx j : Nat) : UnifiedLine :=
  { type := .delete, content := (beforeLines[oldIdx + j]?).getD [],
    oldLineNo := some (oldIdx + j + 1) }

/-- A unified add line (source lines 434-440). -/
def uAddRow (afterLines : List (List Char)) (newIdx j : Nat) : UnifiedLine :=
  { type := .add, content := (afterLines[newIdx + j]?).getD [],
    newLineNo := some (newIdx + j + 1) }

/-- A unified context line (source lines 443-450); note the content comes
from the after-text. -/
def uContextRow (afterLines : List (List Char)) (oldIdx newIdx j : Nat) : UnifiedLine :=
  { type := .context, content := (afterLines[newIdx + j]?).getD [],
    oldLineNo := some (oldIdx + j + 1), newLineNo := some (newIdx + j + 1) }

/-- The hunk loop of `computeUnifiedLines`.  Note that context lines take
their content from the after-text. -/
def unifiedGo :
    List Hunk → Nat → Nat → List (List Char) → List (List Char) → List UnifiedLine
  | [], _, _, _, _ => []
  | .removed count :: rest, oldIdx, newIdx, beforeLines, afterLines =>
      ((List.range count).map (uDeleteRow beforeLines oldIdx)) ++
      unifiedGo rest (oldIdx + count) newIdx beforeLines afterLines
  | .added count :: rest, oldIdx, newIdx, beforeLines, afterLines =>
      ((List.range count).map (uAddRow afterLines newIdx)) ++
      unifiedGo rest oldIdx (newIdx + count) beforeLines afterLines
  | .unchanged count :: rest, oldIdx, newIdx, beforeLines, afterLines =>
      ((List.range count).map (uContextRow afterLines oldIdx newIdx)) ++
      unifiedGo rest (oldIdx + count) (newIdx + count) beforeLines afterLines

/-- `computeUnifiedLines`, parametrised by the external `diffLines`. -/
def computeUnifiedLines (dl : List Char → List Char → List Hunk)
    (before after : List Char) : List UnifiedLine :=
  unifiedGo (dl before after) 0 0 (splitNl before) (splitNl after)

-- ============================================
-- extractContentFromUnifiedDiff (DiffModal.tsx lines 481-502)
-- ============================================

/-- The header/metadata test of `extractContentFromUnifiedDiff`. -/
def skipLine (l : List Char) : Bool :=
  startsWithL "---" l || startsWithL "+++" l ||
  startsWithL "Index:" l || startsWithL "===" l ||
  startsWithL "@@" l || startsWithL "\\ No newline" l

/-- `extractContentFromUnifiedDiff`: recover `(before, after)` from a
unified-diff-formatted string. -/
def extractContentFromUnifiedDiff (diff : List Char) : List Char × List Char :=
  let lines := splitNl diff
  let acc := lines.foldl
    (fun (acc : List Char × List Char) line =>
      if skipLine line then acc
      else if startsWithL "-" line then (acc.1 ++ line.tail ++ ['\n'], acc.2)
      else if startsWithL "+" line then (acc.1, acc.2 ++ line.tail ++ ['\n'])
      else if startsWithL " " line then
        (acc.1 ++ line.tail ++ ['\n'], acc.2 ++ line.tail ++ ['\n'])
      else acc)
    ([], [])
  (trimEnd acc.1, trimEnd acc.2)

-- ============================================
-- Validity of external diff output
-- ============================================

/-- Modelled from the spec: the external line diff primitive (§6 "Line
diff primitive") is specified only at its interface; this predicate
captures the defining property of its output relative to cursors
`oldIdx`/`newIdx`: hunk counts exactly tile the remaining lines of both
texts, and unchanged hunks cover equal lines on both sides. -/
def validDiff : List Hunk → Nat → Nat → List (List Char) → List (List Char) → Bool
  | [], oldIdx, newIdx, beforeLines, afterLines =>
      oldIdx == beforeLines.length && newIdx == afterLines.length
  | .removed count :: rest, oldIdx, newIdx, beforeLines, afterLines =>
      decide (oldIdx + count ≤ beforeLines.length) &&
      validDiff rest (oldIdx + count) newIdx beforeLines afterLines
  | .added count :: rest, oldIdx, newIdx, beforeLines, afterLines =>
      decide (newIdx + count ≤ afterLines.length) &&
      validDiff rest oldIdx (newIdx + count) beforeLines afterLines
  | .unchanged count :: rest, oldIdx, newIdx, beforeLines, afterLines =>
      decide (oldIdx + count ≤ beforeLines.length) &&
      decide (newIdx + count ≤ afterLines.length) &&
      (List.range count).all (fun j => beforeLines[oldIdx + j]? == afterLines[newIdx + j]?) &&
      validDiff rest (oldIdx + count) (newIdx + count) beforeLines afterLines

/-- Modelled from the spec: the external word diff primitive (§6 "Word
diff primitive") produces segments whose removed+unchanged values
concatenate to the old line and added+unchanged values to the new line. -/
def validWordDiff (segs : List WordSeg) (oldLine newLine : List Char) : Bool :=
  ((segs.filter (fun w => w.kind != .added)).map (fun w => w.value)).flatten == oldLine &&
  ((segs.filter (fun w => w.kind != .removed)).map (fun w => w.value)).flatten == newLine

-- ============================================
-- useSmoothStream (useSmoothStream.ts)
-- ============================================

/-- The observable state of one `useSmoothStream` instance: the hook's
props (`fullText`, `isStreaming`), its `displayIndex` state, and its refs
(`prevTextRef`, `wasStreamingRef`, `lastTimeRef`). -/
structure StreamState where
  fullText : List Char
  displayIndex : Nat
  isStreaming : Bool
  prevText : List Char
  wasStreaming : Bool
  lastTime : Nat
  deriving DecidableEq, Repr

/-- Initial mount: `displayIndex` starts at the current `fullText` length;
the refs are initialised from the initial props. -/
def mountStream (t : List Char) (b : Bool) : StreamState :=
  { fullText := t, displayIndex := t.length, isStreaming := b,
    prevText := t, wasStreaming := b, lastTime := 0 }

/-- The content-reset effect (useSmoothStream.ts lines 55-82): computes
the new `displayIndex` for new props `(t, b)`.  `isNewContent` compares
the new text against the first (at most 20) characters of the previous
text; `isNewConversation` detects an empty-to-nonempty transition. -/
def contentResetIndex (st : StreamState) (t : List Char) (b : Bool) : Nat :=
  let prevText := st.prevText
  let isNewContent := decide (t.length > 0) && decide (prevText.length > 0) &&
    !((prevText.take (min prevText.length 20)).isPrefixOf t)
  let isNewConversation := decide (prevText.length = 0) && decide (t.length > 0)
  if isNewContent then t.length
  else if isNewConversation && b then 0
  else st.displayIndex

/-- One props update `(t, b, now)`: runs the content-reset effect, then
the streaming-transition effect (lines 85-104; on streaming end the index
snaps to the full length), then the animation effect's timer
initialisation (lines 136-138: `lastTimeRef` is set when the animation is
active and the timer has not started). -/
def updateStream (st : StreamState) (t : List Char) (b : Bool) (now : Nat) : StreamState :=
  let d1 := contentResetIndex st t b
  let d2 := if st.wasStreaming && !b then t.length else d1
  let lt := if b && decide (d2 < t.length) && decide (st.lastTime = 0) then now else st.lastTime
  { fullText := t, displayIndex := d2, isStreaming := b,
    prevText := t, wasStreaming := b, lastTime := lt }

/-- One animation-frame callback at time `time` (lines 118-133), with the
per-character delay `charDelay`.  The callback is only scheduled while
streaming with undisplayed content; when the elapsed time has crossed
`charDelay`, the index advances by `max 1 (elapsed / charDelay)`, clamped
to the text length. -/
def frameStream (charDelay : Nat) (st : StreamState) (time : Nat) : StreamState :=
  if st.isStreaming && decide (st.displayIndex < st.fullText.length) then
    let elapsed := time - st.lastTime
    if elapsed ≥ charDelay then
      { st with
          displayIndex := min (st.displayIndex + max 1 (elapsed / charDelay)) st.fullText.length,
          lastTime := time }
    else st
  else st

/-- `flush()` (lines 151-157): cancel pending frames and show everything. -/
def flushStream (st : StreamState) : StreamState :=
  { st with displayIndex := st.fullText.length }

/-- External events driving one `useSmoothStream` instance. -/
inductive StreamEv where
  | update (t : List Char) (b : Bool) (now : Nat)
  | frame (time : Nat)
  | flush
  deriving DecidableEq, Repr

/-- One event step. -/
def stepStream (charDelay : Nat) (st : StreamState) : StreamEv → StreamState
  | .update t b now => updateStream st t b now
  | .frame time => frameStream charDelay st time
  | .flush => flushStream st

/-- Run a sequence of events. -/
def runStream (charDelay : Nat) (st : StreamState) : List StreamEv → StreamState
  | [] => st
  | e :: evs => runStream charDelay (stepStream charDelay st e) evs

/-- Output `displayText` (line 161): the slice while streaming, the full
text otherwise. -/
def displayText (st : StreamState) : List Char :=
  if st.isStreaming then st.fullText.take st.displayIndex else st.fullText

/-- Output `isAnimating` (line 162). -/
def isAnimating (st : StreamState) : Bool :=
  st.isStreaming && decide (st.displayIndex < st.fullText.length)

/-- A run in which no props update shrinks `fullText`'s length. -/
def NonShrinkRun (charDelay : Nat) : StreamState → List StreamEv → Prop
  | _, [] => True
  | st, e :: evs =>
      (match e with
       | .update t _ _ => st.fullText.length ≤ t.length
       | _ => True) ∧
      NonShrinkRun charDelay (stepStream charDelay st e) evs

/-- A time sequence whose gaps (from a starting instant) are all at least
the 8ms default character delay. -/
def qualChain : Nat → List Nat → Bool
  | _, [] => true
  | prev, t :: ts => decide (prev + 8 ≤ t) && qualChain t ts

-- ============================================
-- Claim C1
-- ============================================

/-- The contents of the non-empty left-column entries, in order. -/
def leftContents (rows : List PairedLine) : List (List Char) :=
  rows.filterMap (fun r => if r.left.type = .empty then none else some r.left.content)

/-- The contents of the non-empty right-column entries, in order. -/
def rightContents (rows : List PairedLine) : List (List Char) :=
  rows.filterMap (fun r => if r.right.type = .empty then none else some r.right.content)

-- ============================================
-- Claim C3
-- ============================================

/-- The contents of the unified lines carrying an old line number. -/
def oldContents (lines : List UnifiedLine) : List (List Char) :=
  lines.filterMap (fun l => if l.oldLineNo.isSome then some l.content else none)

/-- The contents of the unified lines carrying a new line number. -/
def newContents (lines : List UnifiedLine) : List (List Char) :=
  lines.filterMap (fun l => if l.newLineNo.isSome then some l.content else none)

-- ============================================
-- Claim C8
-- ============================================

/-- The defensive-substitution property of a paired row: each side's
content is a source line or the empty string, and a side whose 1-based
line number exceeds the corresponding text's line count carries the empty
string. -/
def PairedDefensive (bl al : List (List Char)) (pr : PairedLine) : Prop :=
  (pr.left.content = [] ∨ pr.left.content ∈ bl) ∧
  (pr.right.content = [] ∨ pr.right.content ∈ al) ∧
  (∀ n, pr.left.lineNo = some n → bl.length < n → pr.left.content = []) ∧
  (∀ n, pr.right.lineNo = some n → al.length < n → pr.right.content = [])

/-- The defensive-substitution property of a unified line: its content is
a source line or empty; a delete line whose old line number is out of
bounds, or an add/context line whose new line number is out of bounds,
carries the empty string. -/
def UnifiedDefensive (bl al : List (List Char)) (l : UnifiedLine) : Prop :=
  (l.content = [] ∨ l.content ∈ bl ∨ l.content ∈ al) ∧
  (l.type = .delete → ∀ n, l.oldLineNo = some n → bl.length < n → l.content = []) ∧
  (l.type ≠ .delete → ∀ n, l.newLineNo = some n → al.length < n → l.content = [])

-- ============================================
-- Claim C4: marker stripping
-- ============================================

/-- Fuel-driven removal of every occurrence of `pat` (scanning left to
right, skipping the matched pattern).  The fuel bounds the scan length. -/
def stripSubGo (pat : List Char) : Nat → List Char → List Char
  | _, [] => []
  | 0, l => l
  | fuel + 1, c :: rest =>
      if pat.isPrefixOf (c :: rest) then stripSubGo pat fuel (rest.drop (pat.length - 1))
      else c :: stripSubGo pat fuel rest

/-- Remove every occurrence of `pat` from `l`. -/
def stripSub (pat l : List Char) : List Char :=
  stripSubGo pat l.length l

/-- Remove all `computeWordDiff` marker tags (both opening tags and the
closing tag) from a marked-up string. -/
def stripMarks (l : List Char) : List Char :=
  stripSub markEnd (stripSub markAdded (stripSub markRemoved l))

/-- The contribution of one word-diff segment to the left output. -/
def leftPiece (w : WordSeg) : List Char :=
  match w.kind with
  | .removed => markRemoved ++ escapeHtml w.value ++ markEnd
  | .added => []
  | .unchanged => escapeHtml w.value

/-- The left contribution after the opening deletion tag is stripped. -/
def leftPiece1 (w : WordSeg) : List Char :=
  match w.kind with
  | .removed => escapeHtml w.value ++ markEnd
  | .added => []
  | .unchanged => escapeHtml w.value

/-- The left contribution with all markers stripped. -/
def leftKeep (w : WordSeg) : List Char :=
  match w.kind with
  | .added => []
  | _ => escapeHtml w.value

/-- The contribution of one word-diff segment to the right output. -/
def rightPiece (w : WordSeg) : List Char :=
  match w.kind with
  | .removed => []
  | .added => markAdded ++ escapeHtml w.value ++ markEnd
  | .unchanged => escapeHtml w.value

/-- The right contribution after the opening insertion tag is stripped. -/
def rightPiece2 (w : WordSeg) : List Char :=
  match w.kind with
  | .removed => []
  | .added => escapeHtml w.value ++ markEnd
  | .unchanged => escapeHtml w.value

/-- The right contribution with all markers stripped. -/
def rightKeep (w : WordSeg) : List Char :=
  match w.kind with
  | .removed => []
  | _ => escapeHtml w.value

-- ============================================
-- Claim C10
-- ============================================

/-- C10 reference description of `extractContentFromUnifiedDiff`: before
is the newline-joined payloads (first character removed) of the
non-header lines starting with a minus sign or a space, after those
starting with a plus sign or a space, both with trailing whitespace
trimmed. -/
def extractSpec (diff : List Char) : List Char × List Char :=
  let lines := splitNl diff
  let keptB := (lines.filter
    (fun l => !skipLine l && (startsWithL "-" l || startsWithL " " l))).map List.tail
  let keptA := (lines.filter
    (fun l => !skipLine l && (startsWithL "+" l || startsWithL " " l))).map List.tail
  (trimEnd (List.intercalate ['\n'] keptB), trimEnd (List.intercalate ['\n'] keptA))

-- Sanity checks on the embedding.

example : splitNl "a\nb\nc".data = ["a".data, "b".data, "c".data] := by decide

example : splitNl [] = [[]] := by decide

example : splitNl "a\n".data = ["a".data, []] := by decide

example : escapeHtml "<a&b>".data = "&lt;a&amp;b&gt;".data := by decide

example :
    extractContentFromUnifiedDiff "@@ -1 +1 @@\n-a\n+b\n c".data =
      ("a\nc".data, "b\nc".data) := by decide

-- Sanity checks on the stream embedding.

example :
    (runStream 8 (updateStream (mountStream [] true) "hello".data true 0)
      [StreamEv.frame 8, StreamEv.frame 16]).displayIndex = 2 := by decide

example :
    (updateStream (mountStream "hello world, long text...".data false)
      "hello world, long tex".data false 0).displayIndex = 25 := by decide

-- ============================================
-- Stream controller lemmas
-- ============================================

theorem updateStream_fullText (st : StreamState) (t : List Char) (b : Bool) (now : Nat) :
    (updateStream st t b now).fullText = t := rfl

theorem frameStream_fullText (cd : Nat) (st : StreamState) (time : Nat) :
    (frameStream cd st time).fullText = st.fullText := by
  simp only [frameStream]
  split_ifs <;> rfl

theorem frameStream_isStreaming (cd : Nat) (st : StreamState) (time : Nat) :
    (frameStream cd st time).isStreaming = st.isStreaming := by
  simp only [frameStream]
  split_ifs <;> rfl

theorem frameStream_mono (cd : Nat) (st : StreamState) (time : Nat) :
    st.displayIndex ≤ (frameStream cd st time).displayIndex := by
  simp only [frameStream]
  split_ifs with h1 h2
  · simp only [Bool.and_eq_true, decide_eq_true_eq] at h1
    simp only
    omega
  · exact le_rfl
  · exact le_rfl

theorem updateStream_le (st : StreamState) (t : List Char) (b : Bool) (now : Nat)
    (h : st.displayIndex ≤ st.fullText.length) (hlen : st.fullText.length ≤ t.length) :
    (updateStream st t b now).displayIndex ≤ (updateStream st t b now).fullText.length := by
  simp only [updateStream, contentResetIndex]
  split_ifs <;> omega

theorem frameStream_le (cd : Nat) (st : StreamState) (time : Nat)
    (h : st.displayIndex ≤ st.fullText.length) :
    (frameStream cd st time).displayIndex ≤ (frameStream cd st time).fullText.length := by
  simp only [frameStream]
  split_ifs <;> (try simp only) <;> omega

theorem runStream_append (cd : Nat) (st : StreamState) (l1 l2 : List StreamEv) :
    runStream cd st (l1 ++ l2) = runStream cd (runStream cd st l1) l2 := by
  induction l1 generalizing st with
  | nil => rfl
  | cons e l1 ih => exact ih (stepStream cd st e)

theorem runStream_nonshrink_inv (cd : Nat) :
    ∀ (evs : List StreamEv) (st : StreamState),
      st.displayIndex ≤ st.fullText.length → NonShrinkRun cd st evs →
      (runStream cd st evs).displayIndex ≤ (runStream cd st evs).fullText.length
  | [], _, h, _ => h
  | e :: evs, st, h, hrun => by
      have h1 := hrun.1
      have h2 := hrun.2
      cases e with
      | update t b now =>
          exact runStream_nonshrink_inv cd evs _ (updateStream_le st t b now h h1) h2
      | frame time =>
          exact runStream_nonshrink_inv cd evs _ (frameStream_le cd st time h) h2
      | flush =>
          exact runStream_nonshrink_inv cd evs _ (Nat.le_refl _) h2

theorem nonShrinkRun_frames (cd : Nat) :
    ∀ (ts : List Nat) (st : StreamState), NonShrinkRun cd st (ts.map StreamEv.frame)
  | [], _ => trivial
  | _ :: ts, _ => ⟨trivial, nonShrinkRun_frames cd ts _⟩

theorem runStream_frames_fullText (cd : Nat) :
    ∀ (ts : List Nat) (st : StreamState),
      (runStream cd st (ts.map StreamEv.frame)).fullText = st.fullText
  | [], _ => rfl
  | t :: ts, st => by
      simp only [List.map_cons, runStream, stepStream]
      rw [runStream_frames_fullText cd ts, frameStream_fullText]

theorem frames_progress :
    ∀ (ts : List Nat) (st : StreamState) (prev : Nat),
      st.isStreaming = true → st.lastTime ≤ prev →
      st.displayIndex ≤ st.fullText.length →
      qualChain prev ts = true →
      min (st.displayIndex + ts.length) st.fullText.length ≤
        (runStream 8 st (ts.map StreamEv.frame)).displayIndex
  | [], st, _, _, _, hle, _ => by
      simp only [List.map_nil, runStream, List.length_nil, Nat.add_zero]
      omega
  | t :: ts, st, prev, hs, hlt, hle, hq => by
      simp only [qualChain, Bool.and_eq_true, decide_eq_true_eq] at hq
      obtain ⟨hgap, hq2⟩ := hq
      simp only [List.map_cons, runStream, stepStream, List.length_cons]
      by_cases hd : st.displayIndex < st.fullText.length
      · have hguard : (st.isStreaming && decide (st.displayIndex < st.fullText.length)) = true := by
          simp [hs, hd]
        have hframe : frameStream 8 st t =
            { st with
                displayIndex :=
                  min (st.displayIndex + max 1 ((t - st.lastTime) / 8)) st.fullText.length,
                lastTime := t } := by
          simp only [frameStream, hguard, if_true]
          rw [if_pos (by omega : t - st.lastTime ≥ 8)]
        rw [hframe]
        have ih := frames_progress ts
          { st with
              displayIndex :=
                min (st.displayIndex + max 1 ((t - st.lastTime) / 8)) st.fullText.length,
              lastTime := t } t hs (Nat.le_refl t) (by simp only; omega) hq2
        simp only at ih
        omega
      · have hframe : frameStream 8 st t = st := by
          simp [frameStream, hs, hd]
        rw [hframe]
        have ih := frames_progress ts st t hs (by omega) hle hq2
        omega

-- ============================================
-- Claims C5, C6, C7
-- ============================================

/-- Claim C5, amended: in every state of the Smooth Reveal Controller
reachable by any sequence of fullText updates, isStreaming changes, frame
callbacks, and flush calls in which no update decreases the length of
fullText, displayIndex is an integer in the closed interval
[0, fullText.length].  (As stated, without the no-shrink proviso, the
claim is false; see the counterexample.) -/
theorem streamState_displayIndex_bounds (charDelay : Nat) (t0 : List Char) (b0 : Bool)
    (evs : List StreamEv) (h : NonShrinkRun charDelay (mountStream t0 b0) evs) :
    0 ≤ (runStream charDelay (mountStream t0 b0) evs).displayIndex ∧
    (runStream charDelay (mountStream t0 b0) evs).displayIndex ≤
      (runStream charDelay (mountStream t0 b0) evs).fullText.length :=
  ⟨Nat.zero_le _, runStream_nonshrink_inv charDelay evs _ (Nat.le_refl _) h⟩

/-- Witness for the amended C5 on a concrete run. -/
theorem streamState_displayIndex_bounds_witness :
    NonShrinkRun 8 (mountStream "ab".data true)
      [StreamEv.update "abcd".data true 0, StreamEv.frame 8, StreamEv.flush] ∧
    (runStream 8 (mountStream "ab".data true)
        [StreamEv.update "abcd".data true 0, StreamEv.frame 8, StreamEv.flush]).displayIndex ≤
      (runStream 8 (mountStream "ab".data true)
        [StreamEv.update "abcd".data true 0, StreamEv.frame 8, StreamEv.flush]).fullText.length := by
  have hns : NonShrinkRun 8 (mountStream "ab".data true)
      [StreamEv.update "abcd".data true 0, StreamEv.frame 8, StreamEv.flush] :=
    ⟨by decide, trivial, trivial, trivial⟩
  exact ⟨hns, (streamState_displayIndex_bounds 8 "ab".data true _ hns).2⟩

/-- Counterexample to claim C5 as stated: mount with a 25-character text
(not streaming), then update to a 21-character text sharing its first 20
characters.  The reset heuristic does not fire and displayIndex (25)
exceeds fullText.length (21). -/
theorem streamState_displayIndex_out_of_bounds :
    (runStream 8 (mountStream "hello world, long text...".data false)
        [StreamEv.update "hello world, long tex".data false 0]).fullText.length <
      (runStream 8 (mountStream "hello world, long text...".data false)
        [StreamEv.update "hello world, long tex".data false 0]).displayIndex := by
  decide

/-- Claim C6: starting with isStreaming = true and fullText = "", then
setting fullText = "hello" (still streaming), displayIndex resets to 0;
over any sequence of frame callbacks it never exceeds fullText.length and
is non-decreasing, and over any sequence of at least five frame callbacks
whose gaps all reach the 8ms character delay it reaches 5. -/
theorem smoothStream_hello_scenario :
    (updateStream (mountStream [] true) "hello".data true 0).displayIndex = 0 ∧
    (∀ ts : List Nat,
      (runStream 8 (updateStream (mountStream [] true) "hello".data true 0)
          (ts.map StreamEv.frame)).displayIndex ≤
        (runStream 8 (updateStream (mountStream [] true) "hello".data true 0)
          (ts.map StreamEv.frame)).fullText.length) ∧
    (∀ (ts : List Nat) (t : Nat),
      (runStream 8 (updateStream (mountStream [] true) "hello".data true 0)
          (ts.map StreamEv.frame)).displayIndex ≤
        (runStream 8 (updateStream (mountStream [] true) "hello".data true 0)
          ((ts ++ [t]).map StreamEv.frame)).displayIndex) ∧
    (∀ ts : List Nat, qualChain 0 ts = true → 5 ≤ ts.length →
      (runStream 8 (updateStream (mountStream [] true) "hello".data true 0)
          (ts.map StreamEv.frame)).displayIndex = 5) := by
  refine ⟨by decide, ?_, ?_, ?_⟩
  · intro ts
    exact runStream_nonshrink_inv 8 (ts.map StreamEv.frame)
      (updateStream (mountStream [] true) "hello".data true 0) (by decide)
      (nonShrinkRun_frames 8 ts _)
  · intro ts t
    rw [List.map_append, runStream_append]
    simp only [List.map_cons, List.map_nil, runStream, stepStream]
    exact frameStream_mono 8 _ t
  · intro ts hq hlen
    have h1 := frames_progress ts (updateStream (mountStream [] true) "hello".data true 0) 0
      (by decide) (by decide) (by decide) hq
    have h2 := runStream_nonshrink_inv 8 (ts.map StreamEv.frame)
      (updateStream (mountStream [] true) "hello".data true 0) (by decide)
      (nonShrinkRun_frames 8 ts _)
    rw [runStream_frames_fullText] at h2
    have h6 : (updateStream (mountStream [] true) "hello".data true 0).displayIndex = 0 := by
      decide
    have h7 : (updateStream (mountStream [] true) "hello".data true 0).fullText.length = 5 := by
      decide
    rw [h6, h7] at h1
    rw [h7] at h2
    omega

/-- Claim C7: whenever isStreaming is false, displayText is the full
fullText (not a slice) and isAnimating is false, regardless of the prior
displayIndex. -/
theorem smoothStream_not_streaming_shows_all (st : StreamState)
    (h : st.isStreaming = false) :
    displayText st = st.fullText ∧ isAnimating st = false := by
  simp [displayText, isAnimating, h]

/-- Witness for C7 at a concrete state with a stale displayIndex. -/
theorem smoothStream_not_streaming_shows_all_witness :
    (StreamState.mk "abc".data 1 false "abc".data true 0).isStreaming = false ∧
    (displayText (StreamState.mk "abc".data 1 false "abc".data true 0) = "abc".data ∧
     isAnimating (StreamState.mk "abc".data 1 false "abc".data true 0) = false) :=
  ⟨rfl, smoothStream_not_streaming_shows_all _ rfl⟩

/-- Witness for C6 on a concrete qualifying frame sequence. -/
theorem smoothStream_hello_scenario_witness :
    qualChain 0 [8, 16, 24, 32, 40] = true ∧
    (runStream 8 (updateStream (mountStream [] true) "hello".data true 0)
        ([8, 16, 24, 32, 40].map StreamEv.frame)).displayIndex = 5 :=
  ⟨by decide, smoothStream_hello_scenario.2.2.2 [8, 16, 24, 32, 40] (by decide) (by decide)⟩

-- ============================================
-- Range/lookup helper lemmas
-- ============================================

theorem filterMap_range_getElem {α : Type} (bl : List α) :
    ∀ (c i : Nat), i + c ≤ bl.length →
      (List.range c).filterMap (fun j => bl[i + j]?) = (bl.drop i).take c
  | 0, i, _ => by simp
  | c + 1, i, h => by
      have hi : i < bl.length := by omega
      rw [List.range_succ_eq_map, List.filterMap_cons, List.filterMap_map]
      have h0 : bl[i + 0]? = some bl[i] := by
        simpa using List.getElem?_eq_getElem hi
      rw [h0]
      have hcomp : ((fun j => bl[i + j]?) ∘ Nat.succ) = (fun j => bl[(i + 1) + j]?) := by
        funext j
        simp only [Function.comp]
        congr 1
        omega
      rw [hcomp, filterMap_range_getElem bl c (i + 1) (by omega),
        List.drop_eq_getElem_cons hi, List.take_succ_cons]

theorem map_range_getD {α : Type} (bl : List α) (d : α) :
    ∀ (c i : Nat), i + c ≤ bl.length →
      (List.range c).map (fun j => (bl[i + j]?).getD d) = (bl.drop i).take c
  | 0, i, _ => by simp
  | c + 1, i, h => by
      have hi : i < bl.length := by omega
      rw [List.range_succ_eq_map, List.map_cons, List.map_map]
      have h0 : (bl[i + 0]?).getD d = bl[i] := by
        simp [List.getElem?_eq_getElem hi]
      rw [h0]
      have hcomp : ((fun j => (bl[i + j]?).getD d) ∘ Nat.succ) =
          (fun j => (bl[(i + 1) + j]?).getD d) := by
        funext j
        simp only [Function.comp]
        congr 2
        omega
      rw [hcomp, map_range_getD bl d c (i + 1) (by omega),
        List.drop_eq_getElem_cons hi, List.take_succ_cons]

theorem filterMap_range_bound {α : Type} (m c : Nat) (f : Nat → Option α) (h : c ≤ m) :
    (List.range m).filterMap (fun j => if j < c then f j else none) =
      (List.range c).filterMap f := by
  have hm : m = c + (m - c) := by omega
  rw [hm, List.range_add, List.filterMap_append, List.filterMap_map]
  have h1 : (List.range c).filterMap (fun j => if j < c then f j else none) =
      (List.range c).filterMap f := by
    apply List.filterMap_congr
    intro x hx
    rw [List.mem_range] at hx
    simp [hx]
  have h2 : (List.range (m - c)).filterMap ((fun j => if j < c then f j else none) ∘
      fun x => c + x) = [] := by
    rw [List.filterMap_eq_nil]
    intro a _
    simp only [Function.comp]
    rw [if_neg (by omega)]
  rw [h1, h2, List.append_nil]

-- ============================================
-- Claim C2
-- ============================================

/-- Claim C2: on a removed hunk of `count` lines immediately followed by
an added hunk of `addCount` lines (with counts in bounds), the Pairing
Aligner emits exactly `max count addCount` rows for the unit; row j's left
entry is the old line at oldIdx + j when j < count and empty otherwise,
its right entry is the new line at newIdx + j when j < addCount and empty
otherwise; afterwards both hunks are consumed and the cursors have
advanced by count and addCount respectively. -/
theorem pairedLines_removed_added_unit (dw : List Char → List Char → List WordSeg)
    (beforeLines afterLines : List (List Char)) (rest : List Hunk)
    (oldIdx newIdx count addCount : Nat)
    (ho : oldIdx + count ≤ beforeLines.length) (hn : newIdx + addCount ≤ afterLines.length) :
    pairedGo dw (.removed count :: .added addCount :: rest) oldIdx newIdx
        beforeLines afterLines =
      ((List.range (max count addCount)).map (fun j =>
        { left :=
            if j < count then
              { type := .delete, content := beforeLines.getD (oldIdx + j) [],
                lineNo := some (oldIdx + j + 1),
                highlightedContent :=
                  if j < addCount then
                    some (computeWordDiff (dw (beforeLines.getD (oldIdx + j) [])
                      (afterLines.getD (newIdx + j) []))).1
                  else none }
            else emptyCell
          right :=
            if j < addCount then
              { type := .add, content := afterLines.getD (newIdx + j) [],
                lineNo := some (newIdx + j + 1),
                highlightedContent :=
                  if j < count then
                    some (computeWordDiff (dw (beforeLines.getD (oldIdx + j) [])
                      (afterLines.getD (newIdx + j) []))).2
                  else none }
            else emptyCell : PairedLine })) ++
      pairedGo dw rest (oldIdx + count) (newIdx + addCount) beforeLines afterLines := by
  simp only [pairedGo]
  congr 1
  apply List.map_congr_left
  intro j hj
  rw [List.mem_range] at hj
  by_cases hc : j < count <;> by_cases ha : j < addCount
  · have h1 : beforeLines[oldIdx + j]? = some beforeLines[oldIdx + j] :=
      List.getElem?_eq_getElem (by omega)
    have h2 : afterLines[newIdx + j]? = some afterLines[newIdx + j] :=
      List.getElem?_eq_getElem (by omega)
    simp [pairRow, hc, ha, h1, h2, List.getD_eq_getElem?_getD]
  · have h1 : beforeLines[oldIdx + j]? = some beforeLines[oldIdx + j] :=
      List.getElem?_eq_getElem (by omega)
    simp [pairRow, hc, ha, h1, List.getD_eq_getElem?_getD]
  · have h2 : afterLines[newIdx + j]? = some afterLines[newIdx + j] :=
      List.getElem?_eq_getElem (by omega)
    simp [pairRow, hc, ha, h2, List.getD_eq_getElem?_getD]
  · omega

/-- Witness for C2 at a concrete removed/added pair. -/
theorem pairedLines_removed_added_unit_witness :
    0 + 2 ≤ (["a".data, "b".data] : List (List Char)).length ∧
    0 + 1 ≤ ([" x".data] : List (List Char)).length ∧
    pairedGo (fun _ _ => []) [.removed 2, .added 1] 0 0 ["a".data, "b".data] [" x".data] =
      ((List.range (max 2 1)).map (fun j =>
        { left :=
            if j < 2 then
              { type := .delete,
                content := (["a".data, "b".data] : List (List Char)).getD (0 + j) [],
                lineNo := some (0 + j + 1),
                highlightedContent :=
                  if j < 1 then
                    some (computeWordDiff ((fun _ _ => ([] : List WordSeg))
                      ((["a".data, "b".data] : List (List Char)).getD (0 + j) [])
                      (([" x".data] : List (List Char)).getD (0 + j) []))).1
                  else none }
            else emptyCell
          right :=
            if j < 1 then
              { type := .add,
                content := ([" x".data] : List (List Char)).getD (0 + j) [],
                lineNo := some (0 + j + 1),
                highlightedContent :=
                  if j < 2 then
                    some (computeWordDiff ((fun _ _ => ([] : List WordSeg))
                      ((["a".data, "b".data] : List (List Char)).getD (0 + j) [])
                      (([" x".data] : List (List Char)).getD (0 + j) []))).2
                  else none }
            else emptyCell : PairedLine })) ++
      pairedGo (fun _ _ => []) [] (0 + 2) (0 + 1) ["a".data, "b".data] [" x".data] :=
  ⟨by decide, by decide,
    pairedLines_removed_added_unit (fun _ _ => []) ["a".data, "b".data] [" x".data] []
      0 0 2 1 (by decide) (by decide)⟩

-- ============================================
-- Claim C9
-- ============================================

theorem pairedGo_row_shape (dw : List Char → List Char → List WordSeg)
    (bl al : List (List Char)) :
    ∀ (changes : List Hunk) (oldIdx newIdx : Nat),
      validDiff changes oldIdx newIdx bl al = true →
      ∀ pr ∈ pairedGo dw changes oldIdx newIdx bl al,
        pr.left.type ≠ .add ∧ pr.right.type ≠ .delete ∧
        ¬(pr.left.type = .empty ∧ pr.right.type = .empty) := by
  intro changes
  induction changes with
  | nil =>
      intro oldIdx newIdx _ pr hpr
      simp [pairedGo] at hpr
  | cons head tail ih =>
      intro oldIdx newIdx hv pr hpr
      cases head with
      | removed c =>
          cases tail with
          | nil =>
              simp only [pairedGo] at hpr
              rcases List.mem_append.1 hpr with hl | hr
              · obtain ⟨j, _, rfl⟩ := List.mem_map.1 hl
                exact ⟨by simp [removedRow], by simp [removedRow, emptyCell],
                  by simp [removedRow, emptyCell]⟩
              · simp [pairedGo] at hr
          | cons head2 tail2 =>
              cases head2 with
              | added ac =>
                  simp only [validDiff, Bool.and_eq_true, decide_eq_true_eq] at hv
                  obtain ⟨h1, h2, h3⟩ := hv
                  simp only [pairedGo] at hpr
                  rcases List.mem_append.1 hpr with hl | hr
                  · obtain ⟨j, hjr, rfl⟩ := List.mem_map.1 hl
                    rw [List.mem_range] at hjr
                    by_cases hc : j < c <;> by_cases ha : j < ac
                    · have g1 : bl[oldIdx + j]? = some bl[oldIdx + j] :=
                        List.getElem?_eq_getElem (by omega)
                      have g2 : al[newIdx + j]? = some al[newIdx + j] :=
                        List.getElem?_eq_getElem (by omega)
                      simp [pairRow, hc, ha, g1, g2, emptyCell]
                    · have g1 : bl[oldIdx + j]? = some bl[oldIdx + j] :=
                        List.getElem?_eq_getElem (by omega)
                      simp [pairRow, hc, ha, g1, emptyCell]
                    · have g2 : al[newIdx + j]? = some al[newIdx + j] :=
                        List.getElem?_eq_getElem (by omega)
                      simp [pairRow, hc, ha, g2, emptyCell]
                    · omega
                  · have hv2 : validDiff (.added ac :: tail2) (oldIdx + c) newIdx bl al = true := by
                      simp only [validDiff, Bool.and_eq_true, decide_eq_true_eq]
                      exact ⟨h2, h3⟩
                    apply ih (oldIdx + c) newIdx hv2 pr
                    simp only [pairedGo]
                    exact List.mem_append.2 (Or.inr hr)
              | removed c2 =>
                  simp only [validDiff, Bool.and_eq_true, decide_eq_true_eq] at hv
                  simp only [pairedGo] at hpr
                  rcases List.mem_append.1 hpr with hl | hr
                  · obtain ⟨j, _, rfl⟩ := List.mem_map.1 hl
                    exact ⟨by simp [removedRow], by simp [removedRow, emptyCell],
                      by simp [removedRow, emptyCell]⟩
                  · exact ih (oldIdx + c) newIdx (by
                      simp only [validDiff, Bool.and_eq_true, decide_eq_true_eq]
                      exact hv.2) pr hr
              | unchanged c2 =>
                  simp only [validDiff, Bool.and_eq_true, decide_eq_true_eq] at hv
                  simp only [pairedGo] at hpr
                  rcases List.mem_append.1 hpr with hl | hr
                  · obtain ⟨j, _, rfl⟩ := List.mem_map.1 hl
                    exact ⟨by simp [removedRow], by simp [removedRow, emptyCell],
                      by simp [removedRow, emptyCell]⟩
                  · exact ih (oldIdx + c) newIdx (by
                      simp only [validDiff, Bool.and_eq_true, decide_eq_true_eq]
                      exact hv.2) pr hr
      | added c =>
          simp only [validDiff, Bool.and_eq_true, decide_eq_true_eq] at hv
          simp only [pairedGo] at hpr
          rcases List.mem_append.1 hpr with hl | hr
          · obtain ⟨j, _, rfl⟩ := List.mem_map.1 hl
            exact ⟨by simp [addedRow, emptyCell], by simp [addedRow],
              by simp [addedRow, emptyCell]⟩
          · exact ih oldIdx (newIdx + c) hv.2 pr hr
      | unchanged c =>
          simp only [validDiff, Bool.and_eq_true, decide_eq_true_eq] at hv
          simp only [pairedGo] at hpr
          rcases List.mem_append.1 hpr with hl | hr
          · obtain ⟨j, _, rfl⟩ := List.mem_map.1 hl
            exact ⟨by simp [contextRow], by simp [contextRow], by simp [contextRow]⟩
          · exact ih (oldIdx + c) (newIdx + c) hv.2 pr hr

/-- Claim C9: every row of the Pairing Aligner has a left entry that is
never an add, a right entry that is never a delete, and the two entries
are never both empty. -/
theorem pairedLines_row_shape (dl : List Char → List Char → List Hunk)
    (dw : List Char → List Char → List WordSeg) (before after : List Char)
    (h : validDiff (dl before after) 0 0 (splitNl before) (splitNl after) = true) :
    ∀ pr ∈ computePairedLines dl dw before after,
      pr.left.type ≠ .add ∧ pr.right.type ≠ .delete ∧
      ¬(pr.left.type = .empty ∧ pr.right.type = .empty) :=
  pairedGo_row_shape dw (splitNl before) (splitNl after) (dl before after) 0 0 h

/-- Witness for C9 on a concrete diff. -/
theorem pairedLines_row_shape_witness :
    validDiff ((fun _ _ => [Hunk.unchanged 1, Hunk.removed 1, Hunk.added 1])
        "a\nb".data "a\nx".data) 0 0 (splitNl "a\nb".data) (splitNl "a\nx".data) = true ∧
    (PairedLine.mk (DiffLine.mk .context "a".data (some 1) none)
          (DiffLine.mk .context "a".data (some 1) none) ∈
        computePairedLines (fun _ _ => [Hunk.unchanged 1, Hunk.removed 1, Hunk.added 1])
          (fun _ _ => []) "a\nb".data "a\nx".data) ∧
    ((PairedLine.mk (DiffLine.mk .context "a".data (some 1) none)
          (DiffLine.mk .context "a".data (some 1) none)).left.type ≠ .add ∧
      (PairedLine.mk (DiffLine.mk .context "a".data (some 1) none)
          (DiffLine.mk .context "a".data (some 1) none)).right.type ≠ .delete ∧
      ¬((PairedLine.mk (DiffLine.mk .context "a".data (some 1) none)
            (DiffLine.mk .context "a".data (some 1) none)).left.type = .empty ∧
        (PairedLine.mk (DiffLine.mk .context "a".data (some 1) none)
            (DiffLine.mk .context "a".data (some 1) none)).right.type = .empty)) :=
  ⟨by decide, by decide,
    pairedLines_row_shape (fun _ _ => [Hunk.unchanged 1, Hunk.removed 1, Hunk.added 1])
      (fun _ _ => []) "a\nb".data "a\nx".data (by decide) _ (by decide)⟩

theorem filterMap_some_eq_map {α β : Type} (f : α → β) (l : List α) :
    l.filterMap (fun x => some (f x)) = l.map f := by
  induction l with
  | nil => rfl
  | cons a l ih => simp [List.filterMap_cons, ih]

theorem filterMap_none_eq_nil {α β : Type} (l : List α) :
    l.filterMap (fun _ => (none : Option β)) = [] := by
  induction l with
  | nil => rfl
  | cons a l ih => simp [List.filterMap_cons, ih]

theorem take_append_drop_drop {α : Type} (l : List α) (i c : Nat) :
    (l.drop i).take c ++ l.drop (i + c) = l.drop i := by
  conv_rhs => rw [← List.take_append_drop c (l.drop i)]
  rw [List.drop_drop]

theorem leftContents_append (a b : List PairedLine) :
    leftContents (a ++ b) = leftContents a ++ leftContents b :=
  List.filterMap_append a b _

theorem rightContents_append (a b : List PairedLine) :
    rightContents (a ++ b) = rightContents a ++ rightContents b :=
  List.filterMap_append a b _

theorem leftContents_removedRows (bl : List (List Char)) (oldIdx c : Nat)
    (h : oldIdx + c ≤ bl.length) :
    leftContents ((List.range c).map (removedRow bl oldIdx)) = (bl.drop oldIdx).take c := by
  unfold leftContents
  rw [List.filterMap_map]
  have hfun : ((fun r : PairedLine => if r.left.type = .empty then none else some r.left.content)
      ∘ removedRow bl oldIdx) = fun j => some ((bl[oldIdx + j]?).getD []) := rfl
  rw [hfun, filterMap_some_eq_map, map_range_getD bl [] c oldIdx h]

theorem rightContents_removedRows (bl : List (List Char)) (oldIdx c : Nat) :
    rightContents ((List.range c).map (removedRow bl oldIdx)) = [] := by
  unfold rightContents
  rw [List.filterMap_map]
  have hfun : ((fun r : PairedLine => if r.right.type = .empty then none else some r.right.content)
      ∘ removedRow bl oldIdx) = fun _ => (none : Option (List Char)) := rfl
  rw [hfun, filterMap_none_eq_nil]

theorem leftContents_addedRows (al : List (List Char)) (newIdx c : Nat) :
    leftContents ((List.range c).map (addedRow al newIdx)) = [] := by
  unfold leftContents
  rw [List.filterMap_map]
  have hfun : ((fun r : PairedLine => if r.left.type = .empty then none else some r.left.content)
      ∘ addedRow al newIdx) = fun _ => (none : Option (List Char)) := rfl
  rw [hfun, filterMap_none_eq_nil]

theorem rightContents_addedRows (al : List (List Char)) (newIdx c : Nat)
    (h : newIdx + c ≤ al.length) :
    rightContents ((List.range c).map (addedRow al newIdx)) = (al.drop newIdx).take c := by
  unfold rightContents
  rw [List.filterMap_map]
  have hfun : ((fun r : PairedLine => if r.right.type = .empty then none else some r.right.content)
      ∘ addedRow al newIdx) = fun j => some ((al[newIdx + j]?).getD []) := rfl
  rw [hfun, filterMap_some_eq_map, map_range_getD al [] c newIdx h]

theorem leftContents_contextRows (bl al : List (List Char)) (oldIdx newIdx c : Nat)
    (h : oldIdx + c ≤ bl.length) :
    leftContents ((List.range c).map (contextRow bl al oldIdx newIdx)) =
      (bl.drop oldIdx).take c := by
  unfold leftContents
  rw [List.filterMap_map]
  have hfun : ((fun r : PairedLine => if r.left.type = .empty then none else some r.left.content)
      ∘ contextRow bl al oldIdx newIdx) = fun j => some ((bl[oldIdx + j]?).getD []) := rfl
  rw [hfun, filterMap_some_eq_map, map_range_getD bl [] c oldIdx h]

theorem rightContents_contextRows (bl al : List (List Char)) (oldIdx newIdx c : Nat)
    (h : newIdx + c ≤ al.length) :
    rightContents ((List.range c).map (contextRow bl al oldIdx newIdx)) =
      (al.drop newIdx).take c := by
  unfold rightContents
  rw [List.filterMap_map]
  have hfun : ((fun r : PairedLine => if r.right.type = .empty then none else some r.right.content)
      ∘ contextRow bl al oldIdx newIdx) = fun j => some ((al[newIdx + j]?).getD []) := rfl
  rw [hfun, filterMap_some_eq_map, map_range_getD al [] c newIdx h]

theorem leftContents_pairRows (dw : List Char → List Char → List WordSeg)
    (bl al : List (List Char)) (oldIdx newIdx c ac : Nat)
    (h : oldIdx + c ≤ bl.length) :
    leftContents ((List.range (max c ac)).map (pairRow dw bl al oldIdx newIdx c ac)) =
      (bl.drop oldIdx).take c := by
  unfold leftContents
  rw [List.filterMap_map]
  have hfun : ((fun r : PairedLine => if r.left.type = .empty then none else some r.left.content)
      ∘ pairRow dw bl al oldIdx newIdx c ac) =
      fun j => if j < c then bl[oldIdx + j]? else none := by
    funext j
    by_cases hc : j < c
    · cases hb : bl[oldIdx + j]? with
      | none => simp [pairRow, hc, hb, emptyCell]
      | some o => simp [pairRow, hc, hb]
    · simp [pairRow, hc, emptyCell]
  rw [hfun, filterMap_range_bound (max c ac) c _ (le_max_left c ac),
    filterMap_range_getElem bl c oldIdx h]

theorem rightContents_pairRows (dw : List Char → List Char → List WordSeg)
    (bl al : List (List Char)) (oldIdx newIdx c ac : Nat)
    (h : newIdx + ac ≤ al.length) :
    rightContents ((List.range (max c ac)).map (pairRow dw bl al oldIdx newIdx c ac)) =
      (al.drop newIdx).take ac := by
  unfold rightContents
  rw [List.filterMap_map]
  have hfun : ((fun r : PairedLine => if r.right.type = .empty then none else some r.right.content)
      ∘ pairRow dw bl al oldIdx newIdx c ac) =
      fun j => if j < ac then al[newIdx + j]? else none := by
    funext j
    by_cases ha : j < ac
    · cases hb : al[newIdx + j]? with
      | none => simp [pairRow, ha, hb, emptyCell]
      | some o => simp [pairRow, ha, hb]
    · simp [pairRow, ha, emptyCell]
  rw [hfun, filterMap_range_bound (max c ac) ac _ (le_max_right c ac),
    filterMap_range_getElem al ac newIdx h]

theorem pairedGo_reconstruct (dw : List Char → List Char → List WordSeg)
    (bl al : List (List Char)) :
    ∀ (changes : List Hunk) (oldIdx newIdx : Nat),
      validDiff changes oldIdx newIdx bl al = true →
      leftContents (pairedGo dw changes oldIdx newIdx bl al) = bl.drop oldIdx ∧
      rightContents (pairedGo dw changes oldIdx newIdx bl al) = al.drop newIdx := by
  intro changes
  induction changes with
  | nil =>
      intro oldIdx newIdx hv
      simp only [validDiff, Bool.and_eq_true, beq_iff_eq] at hv
      obtain ⟨h1, h2⟩ := hv
      subst h1
      subst h2
      simp [pairedGo, leftContents, rightContents, List.drop_length]
  | cons head tail ih =>
      intro oldIdx newIdx hv
      cases head with
      | removed c =>
          simp only [validDiff, Bool.and_eq_true, decide_eq_true_eq] at hv
          obtain ⟨h1, h2⟩ := hv
          cases tail with
          | nil =>
              simp only [validDiff, Bool.and_eq_true, beq_iff_eq] at h2
              obtain ⟨h2a, h2b⟩ := h2
              simp only [pairedGo]
              rw [leftContents_append, rightContents_append,
                leftContents_removedRows bl oldIdx c h1, rightContents_removedRows]
              subst h2b
              constructor
              · rw [show leftContents [] = [] from rfl, List.append_nil,
                  List.take_of_length_le (by rw [List.length_drop]; omega)]
              · rw [show rightContents [] = [] from rfl, List.append_nil,
                  List.drop_length]
          | cons head2 tail2 =>
              cases head2 with
              | added ac =>
                  obtain ⟨ihl, ihr⟩ := ih (oldIdx + c) newIdx h2
                  have h2' := h2
                  simp only [validDiff, Bool.and_eq_true, decide_eq_true_eq] at h2'
                  obtain ⟨h2a, _⟩ := h2'
                  simp only [pairedGo] at ihl ihr
                  rw [leftContents_append, leftContents_addedRows, List.nil_append] at ihl
                  rw [rightContents_append, rightContents_addedRows al newIdx ac h2a] at ihr
                  have hx : rightContents
                      (pairedGo dw tail2 (oldIdx + c) (newIdx + ac) bl al) =
                      al.drop (newIdx + ac) :=
                    List.append_cancel_left
                      (ihr.trans (take_append_drop_drop al newIdx ac).symm)
                  simp only [pairedGo]
                  rw [leftContents_append, rightContents_append,
                    leftContents_pairRows dw bl al oldIdx newIdx c ac h1,
                    rightContents_pairRows dw bl al oldIdx newIdx c ac h2a,
                    ihl, hx, take_append_drop_drop, take_append_drop_drop]
                  exact ⟨rfl, rfl⟩
              | removed c2 =>
                  obtain ⟨ihl, ihr⟩ := ih (oldIdx + c) newIdx h2
                  simp only [pairedGo] at ihl ihr ⊢
                  rw [leftContents_append, rightContents_append,
                    leftContents_removedRows bl oldIdx c h1, rightContents_removedRows,
                    ihl, ihr, take_append_drop_drop, List.nil_append]
                  exact ⟨rfl, rfl⟩
              | unchanged c2 =>
                  obtain ⟨ihl, ihr⟩ := ih (oldIdx + c) newIdx h2
                  simp only [pairedGo] at ihl ihr ⊢
                  rw [leftContents_append, rightContents_append,
                    leftContents_removedRows bl oldIdx c h1, rightContents_removedRows,
                    ihl, ihr, take_append_drop_drop, List.nil_append]
                  exact ⟨rfl, rfl⟩
      | added c =>
          simp only [validDiff, Bool.and_eq_true, decide_eq_true_eq] at hv
          obtain ⟨h1, h2⟩ := hv
          obtain ⟨ihl, ihr⟩ := ih oldIdx (newIdx + c) h2
          simp only [pairedGo]
          rw [leftContents_append, rightContents_append, leftContents_addedRows,
            rightContents_addedRows al newIdx c h1, ihl, ihr,
            take_append_drop_drop, List.nil_append]
          exact ⟨rfl, rfl⟩
      | unchanged c =>
          simp only [validDiff, Bool.and_eq_true, decide_eq_true_eq] at hv
          obtain ⟨⟨⟨ha, hb⟩, _⟩, h2⟩ := hv
          obtain ⟨ihl, ihr⟩ := ih (oldIdx + c) (newIdx + c) h2
          simp only [pairedGo]
          rw [leftContents_append, rightContents_append,
            leftContents_contextRows bl al oldIdx newIdx c ha,
            rightContents_contextRows bl al oldIdx newIdx c hb,
            ihl, ihr, take_append_drop_drop, take_append_drop_drop]
          exact ⟨rfl, rfl⟩

/-- Claim C1: concatenating, in order, the contents of the non-empty
left-column entries of the Pairing Aligner's rows yields exactly the line
sequence of `before`, and the non-empty right-column entries yield exactly
the line sequence of `after`. -/
theorem pairedLines_reconstruct (dl : List Char → List Char → List Hunk)
    (dw : List Char → List Char → List WordSeg) (before after : List Char)
    (h : validDiff (dl before after) 0 0 (splitNl before) (splitNl after) = true) :
    leftContents (computePairedLines dl dw before after) = splitNl before ∧
    rightContents (computePairedLines dl dw before after) = splitNl after := by
  have hmain := pairedGo_reconstruct dw (splitNl before) (splitNl after)
    (dl before after) 0 0 h
  simpa [computePairedLines] using hmain

/-- Witness for C1 on a concrete diff. -/
theorem pairedLines_reconstruct_witness :
    validDiff ((fun _ _ => [Hunk.unchanged 1, Hunk.removed 1, Hunk.added 1])
        "a\nb".data "a\nx".data) 0 0 (splitNl "a\nb".data) (splitNl "a\nx".data) = true ∧
    (leftContents (computePairedLines
        (fun _ _ => [Hunk.unchanged 1, Hunk.removed 1, Hunk.added 1])
        (fun _ _ => []) "a\nb".data "a\nx".data) = splitNl "a\nb".data ∧
      rightContents (computePairedLines
        (fun _ _ => [Hunk.unchanged 1, Hunk.removed 1, Hunk.added 1])
        (fun _ _ => []) "a\nb".data "a\nx".data) = splitNl "a\nx".data) :=
  ⟨by decide,
    pairedLines_reconstruct (fun _ _ => [Hunk.unchanged 1, Hunk.removed 1, Hunk.added 1])
      (fun _ _ => []) "a\nb".data "a\nx".data (by decide)⟩

theorem oldContents_append (a b : List UnifiedLine) :
    oldContents (a ++ b) = oldContents a ++ oldContents b :=
  List.filterMap_append a b _

theorem newContents_append (a b : List UnifiedLine) :
    newContents (a ++ b) = newContents a ++ newContents b :=
  List.filterMap_append a b _

theorem oldContents_uDeleteRows (bl : List (List Char)) (oldIdx c : Nat)
    (h : oldIdx + c ≤ bl.length) :
    oldContents ((List.range c).map (uDeleteRow bl oldIdx)) = (bl.drop oldIdx).take c := by
  unfold oldContents
  rw [List.filterMap_map]
  have hfun : ((fun l : UnifiedLine => if l.oldLineNo.isSome then some l.content else none)
      ∘ uDeleteRow bl oldIdx) = fun j => some ((bl[oldIdx + j]?).getD []) := rfl
  rw [hfun, filterMap_some_eq_map, map_range_getD bl [] c oldIdx h]

theorem newContents_uDeleteRows (bl : List (List Char)) (oldIdx c : Nat) :
    newContents ((List.range c).map (uDeleteRow bl oldIdx)) = [] := by
  unfold newContents
  rw [List.filterMap_map]
  have hfun : ((fun l : UnifiedLine => if l.newLineNo.isSome then some l.content else none)
      ∘ uDeleteRow bl oldIdx) = fun _ => (none : Option (List Char)) := rfl
  rw [hfun, filterMap_none_eq_nil]

theorem oldContents_uAddRows (al : List (List Char)) (newIdx c : Nat) :
    oldContents ((List.range c).map (uAddRow al newIdx)) = [] := by
  unfold oldContents
  rw [List.filterMap_map]
  have hfun : ((fun l : UnifiedLine => if l.oldLineNo.isSome then some l.content else none)
      ∘ uAddRow al newIdx) = fun _ => (none : Option (List Char)) := rfl
  rw [hfun, filterMap_none_eq_nil]

theorem newContents_uAddRows (al : List (List Char)) (newIdx c : Nat)
    (h : newIdx + c ≤ al.length) :
    newContents ((List.range c).map (uAddRow al newIdx)) = (al.drop newIdx).take c := by
  unfold newContents
  rw [List.filterMap_map]
  have hfun : ((fun l : UnifiedLine => if l.newLineNo.isSome then some l.content else none)
      ∘ uAddRow al newIdx) = fun j => some ((al[newIdx + j]?).getD []) := rfl
  rw [hfun, filterMap_some_eq_map, map_range_getD al [] c newIdx h]

theorem oldContents_uContextRows (bl al : List (List Char)) (oldIdx newIdx c : Nat)
    (hb : oldIdx + c ≤ bl.length)
    (heq : ∀ j, j < c → bl[oldIdx + j]? = al[newIdx + j]?) :
    oldContents ((List.range c).map (uContextRow al oldIdx newIdx)) =
      (bl.drop oldIdx).take c := by
  unfold oldContents
  rw [List.filterMap_map]
  have hfun : ((fun l : UnifiedLine => if l.oldLineNo.isSome then some l.content else none)
      ∘ uContextRow al oldIdx newIdx) = fun j => some ((al[newIdx + j]?).getD []) := rfl
  rw [hfun, filterMap_some_eq_map]
  have hmap : (List.range c).map (fun j => (al[newIdx + j]?).getD []) =
      (List.range c).map (fun j => (bl[oldIdx + j]?).getD []) :=
    List.map_congr_left (fun j hj => by simp only [heq j (List.mem_range.1 hj)])
  rw [hmap]
  exact map_range_getD bl [] c oldIdx hb

theorem newContents_uContextRows (al : List (List Char)) (oldIdx newIdx c : Nat)
    (h : newIdx + c ≤ al.length) :
    newContents ((List.range c).map (uContextRow al oldIdx newIdx)) =
      (al.drop newIdx).take c := by
  unfold newContents
  rw [List.filterMap_map]
  have hfun : ((fun l : UnifiedLine => if l.newLineNo.isSome then some l.content else none)
      ∘ uContextRow al oldIdx newIdx) = fun j => some ((al[newIdx + j]?).getD []) := rfl
  rw [hfun, filterMap_some_eq_map, map_range_getD al [] c newIdx h]

theorem unifiedGo_reconstruct (bl al : List (List Char)) :
    ∀ (changes : List Hunk) (oldIdx newIdx : Nat),
      validDiff changes oldIdx newIdx bl al = true →
      oldContents (unifiedGo changes oldIdx newIdx bl al) = bl.drop oldIdx ∧
      newContents (unifiedGo changes oldIdx newIdx bl al) = al.drop newIdx := by
  intro changes
  induction changes with
  | nil =>
      intro oldIdx newIdx hv
      simp only [validDiff, Bool.and_eq_true, beq_iff_eq] at hv
      obtain ⟨h1, h2⟩ := hv
      subst h1
      subst h2
      simp [unifiedGo, oldContents, newContents, List.drop_length]
  | cons head tail ih =>
      intro oldIdx newIdx hv
      cases head with
      | removed c =>
          simp only [validDiff, Bool.and_eq_true, decide_eq_true_eq] at hv
          obtain ⟨h1, h2⟩ := hv
          obtain ⟨ihl, ihr⟩ := ih (oldIdx + c) newIdx h2
          simp only [unifiedGo]
          rw [oldContents_append, newContents_append,
            oldContents_uDeleteRows bl oldIdx c h1, newContents_uDeleteRows,
            ihl, ihr, take_append_drop_drop, List.nil_append]
          exact ⟨rfl, rfl⟩
      | added c =>
          simp only [validDiff, Bool.and_eq_true, decide_eq_true_eq] at hv
          obtain ⟨h1, h2⟩ := hv
          obtain ⟨ihl, ihr⟩ := ih oldIdx (newIdx + c) h2
          simp only [unifiedGo]
          rw [oldContents_append, newContents_append, oldContents_uAddRows,
            newContents_uAddRows al newIdx c h1, ihl, ihr,
            take_append_drop_drop, List.nil_append]
          exact ⟨rfl, rfl⟩
      | unchanged c =>
          simp only [validDiff, Bool.and_eq_true, decide_eq_true_eq] at hv
          obtain ⟨⟨⟨ha, hb⟩, hall⟩, h2⟩ := hv
          have heq : ∀ j, j < c → bl[oldIdx + j]? = al[newIdx + j]? := by
            intro j hj
            have := List.all_eq_true.1 hall j (List.mem_range.2 hj)
            exact beq_iff_eq.1 this
          obtain ⟨ihl, ihr⟩ := ih (oldIdx + c) (newIdx + c) h2
          simp only [unifiedGo]
          rw [oldContents_append, newContents_append,
            oldContents_uContextRows bl al oldIdx newIdx c ha heq,
            newContents_uContextRows al oldIdx newIdx c hb,
            ihl, ihr, take_append_drop_drop, take_append_drop_drop]
          exact ⟨rfl, rfl⟩

/-- Claim C3: the Unified Formatter's lines carrying an old line number
have contents equal, in order, to the lines of `before`; those carrying a
new line number have contents equal to the lines of `after` (context-line
content is sourced from the after-text, which agrees on unchanged hunks). -/
theorem unifiedLines_reconstruct (dl : List Char → List Char → List Hunk)
    (before after : List Char)
    (h : validDiff (dl before after) 0 0 (splitNl before) (splitNl after) = true) :
    oldContents (computeUnifiedLines dl before after) = splitNl before ∧
    newContents (computeUnifiedLines dl before after) = splitNl after := by
  have hmain := unifiedGo_reconstruct (splitNl before) (splitNl after)
    (dl before after) 0 0 h
  simpa [computeUnifiedLines] using hmain

/-- Witness for C3 on a concrete diff. -/
theorem unifiedLines_reconstruct_witness :
    validDiff ((fun _ _ => [Hunk.unchanged 1, Hunk.removed 1, Hunk.added 1])
        "a\nb".data "a\nx".data) 0 0 (splitNl "a\nb".data) (splitNl "a\nx".data) = true ∧
    (oldContents (computeUnifiedLines
        (fun _ _ => [Hunk.unchanged 1, Hunk.removed 1, Hunk.added 1])
        "a\nb".data "a\nx".data) = splitNl "a\nb".data ∧
      newContents (computeUnifiedLines
        (fun _ _ => [Hunk.unchanged 1, Hunk.removed 1, Hunk.added 1])
        "a\nb".data "a\nx".data) = splitNl "a\nx".data) :=
  ⟨by decide,
    unifiedLines_reconstruct (fun _ _ => [Hunk.unchanged 1, Hunk.removed 1, Hunk.added 1])
      "a\nb".data "a\nx".data (by decide)⟩

theorem removedRow_defensive (bl al : List (List Char)) (oldIdx j : Nat) :
    PairedDefensive bl al (removedRow bl oldIdx j) := by
  unfold PairedDefensive removedRow emptyCell
  cases hb : bl[oldIdx + j]? with
  | none =>
      refine ⟨Or.inl (by simp [hb]), Or.inl rfl, ?_, ?_⟩
      · intro n _ _
        simp [hb]
      · intro n hn
        simp at hn
  | some x =>
      have hlt : oldIdx + j < bl.length := (List.getElem?_eq_some.1 hb).1
      refine ⟨Or.inr (by simpa [hb] using List.getElem?_mem hb), Or.inl rfl, ?_, ?_⟩
      · intro n hn hlen
        simp only [Option.some.injEq] at hn
        omega
      · intro n hn
        simp at hn

theorem addedRow_defensive (bl al : List (List Char)) (newIdx j : Nat) :
    PairedDefensive bl al (addedRow al newIdx j) := by
  unfold PairedDefensive addedRow emptyCell
  cases hb : al[newIdx + j]? with
  | none =>
      refine ⟨Or.inl rfl, Or.inl (by simp [hb]), ?_, ?_⟩
      · intro n hn
        simp at hn
      · intro n _ _
        simp [hb]
  | some x =>
      have hlt : newIdx + j < al.length := (List.getElem?_eq_some.1 hb).1
      refine ⟨Or.inl rfl, Or.inr (by simpa [hb] using List.getElem?_mem hb), ?_, ?_⟩
      · intro n hn
        simp at hn
      · intro n hn hlen
        simp only [Option.some.injEq] at hn
        omega

theorem contextRow_defensive (bl al : List (List Char)) (oldIdx newIdx j : Nat) :
    PairedDefensive bl al (contextRow bl al oldIdx newIdx j) := by
  unfold PairedDefensive
  refine ⟨?_, ?_, ?_, ?_⟩
  · cases hb : bl[oldIdx + j]? with
    | none => exact Or.inl (by simp [contextRow, hb])
    | some x => exact Or.inr (by simpa [contextRow, hb] using List.getElem?_mem hb)
  · cases hb : al[newIdx + j]? with
    | none => exact Or.inl (by simp [contextRow, hb])
    | some x => exact Or.inr (by simpa [contextRow, hb] using List.getElem?_mem hb)
  · intro n hn hlen
    simp only [contextRow, Option.some.injEq] at hn
    simp only [contextRow]
    rw [List.getElem?_eq_none (show bl.length ≤ oldIdx + j by omega)]
    rfl
  · intro n hn hlen
    simp only [contextRow, Option.some.injEq] at hn
    simp only [contextRow]
    rw [List.getElem?_eq_none (show al.length ≤ newIdx + j by omega)]
    rfl

theorem pairRow_left_fields (dw : List Char → List Char → List WordSeg)
    (bl al : List (List Char)) (oldIdx newIdx c ac j : Nat) :
    (pairRow dw bl al oldIdx newIdx c ac j).left.content =
      (if j < c then bl[oldIdx + j]? else none).getD [] ∧
    (pairRow dw bl al oldIdx newIdx c ac j).left.lineNo =
      (if (if j < c then bl[oldIdx + j]? else none).isSome then some (oldIdx + j + 1)
        else none) := by
  simp only [pairRow]
  cases h1 : (if j < c then bl[oldIdx + j]? else none) <;>
    cases h2 : (if j < ac then al[newIdx + j]? else none) <;>
      simp [h1, h2, emptyCell]

theorem pairRow_right_fields (dw : List Char → List Char → List WordSeg)
    (bl al : List (List Char)) (oldIdx newIdx c ac j : Nat) :
    (pairRow dw bl al oldIdx newIdx c ac j).right.content =
      (if j < ac then al[newIdx + j]? else none).getD [] ∧
    (pairRow dw bl al oldIdx newIdx c ac j).right.lineNo =
      (if (if j < ac then al[newIdx + j]? else none).isSome then some (newIdx + j + 1)
        else none) := by
  simp only [pairRow]
  cases h1 : (if j < c then bl[oldIdx + j]? else none) <;>
    cases h2 : (if j < ac then al[newIdx + j]? else none) <;>
      simp [h1, h2, emptyCell]

theorem pairRow_defensive (dw : List Char → List Char → List WordSeg)
    (bl al : List (List Char)) (oldIdx newIdx c ac j : Nat) :
    PairedDefensive bl al (pairRow dw bl al oldIdx newIdx c ac j) := by
  obtain ⟨hLc, hLn⟩ := pairRow_left_fields dw bl al oldIdx newIdx c ac j
  obtain ⟨hRc, hRn⟩ := pairRow_right_fields dw bl al oldIdx newIdx c ac j
  unfold PairedDefensive
  refine ⟨?_, ?_, ?_, ?_⟩
  · rw [hLc]
    by_cases hc : j < c
    · simp only [hc, if_true]
      cases hb : bl[oldIdx + j]? with
      | none => exact Or.inl rfl
      | some x => exact Or.inr (by simpa using List.getElem?_mem hb)
    · simp [hc]
  · rw [hRc]
    by_cases ha : j < ac
    · simp only [ha, if_true]
      cases hb : al[newIdx + j]? with
      | none => exact Or.inl rfl
      | some x => exact Or.inr (by simpa using List.getElem?_mem hb)
    · simp [ha]
  · intro n hn hlen
    rw [hLn] at hn
    rw [hLc]
    by_cases hc : j < c
    · simp only [hc, if_true] at hn ⊢
      cases hb : bl[oldIdx + j]? with
      | none => rfl
      | some x =>
          rw [hb] at hn
          simp only [Option.isSome_some, if_true, Option.some.injEq] at hn
          subst hn
          have := (List.getElem?_eq_some.1 hb).1
          exact absurd hlen (by omega)
    · simp [hc] at hn
  · intro n hn hlen
    rw [hRn] at hn
    rw [hRc]
    by_cases ha : j < ac
    · simp only [ha, if_true] at hn ⊢
      cases hb : al[newIdx + j]? with
      | none => rfl
      | some x =>
          rw [hb] at hn
          simp only [Option.isSome_some, if_true, Option.some.injEq] at hn
          subst hn
          have := (List.getElem?_eq_some.1 hb).1
          exact absurd hlen (by omega)
    · simp [ha] at hn

theorem uDeleteRow_defensive (bl al : List (List Char)) (oldIdx j : Nat) :
    UnifiedDefensive bl al (uDeleteRow bl oldIdx j) := by
  unfold UnifiedDefensive
  refine ⟨?_, ?_, ?_⟩
  · cases hb : bl[oldIdx + j]? with
    | none => exact Or.inl (by simp [uDeleteRow, hb])
    | some x => exact Or.inr (Or.inl (by simpa [uDeleteRow, hb] using List.getElem?_mem hb))
  · intro _ n hn hlen
    simp only [uDeleteRow, Option.some.injEq] at hn
    simp only [uDeleteRow]
    rw [List.getElem?_eq_none (show bl.length ≤ oldIdx + j by omega)]
    rfl
  · intro hne
    exact absurd rfl hne

theorem uAddRow_defensive (bl al : List (List Char)) (newIdx j : Nat) :
    UnifiedDefensive bl al (uAddRow al newIdx j) := by
  unfold UnifiedDefensive
  refine ⟨?_, ?_, ?_⟩
  · cases hb : al[newIdx + j]? with
    | none => exact Or.inl (by simp [uAddRow, hb])
    | some x => exact Or.inr (Or.inr (by simpa [uAddRow, hb] using List.getElem?_mem hb))
  · intro h
    simp [uAddRow] at h
  · intro _ n hn hlen
    simp only [uAddRow, Option.some.injEq] at hn
    simp only [uAddRow]
    rw [List.getElem?_eq_none (show al.length ≤ newIdx + j by omega)]
    rfl

theorem uContextRow_defensive (bl al : List (List Char)) (oldIdx newIdx j : Nat) :
    UnifiedDefensive bl al (uContextRow al oldIdx newIdx j) := by
  unfold UnifiedDefensive
  refine ⟨?_, ?_, ?_⟩
  · cases hb : al[newIdx + j]? with
    | none => exact Or.inl (by simp [uContextRow, hb])
    | some x => exact Or.inr (Or.inr (by simpa [uContextRow, hb] using List.getElem?_mem hb))
  · intro h
    simp [uContextRow] at h
  · intro _ n hn hlen
    simp only [uContextRow, Option.some.injEq] at hn
    simp only [uContextRow]
    rw [List.getElem?_eq_none (show al.length ≤ newIdx + j by omega)]
    rfl

theorem pairedGo_defensive (dw : List Char → List Char → List WordSeg)
    (bl al : List (List Char)) :
    ∀ (changes : List Hunk) (oldIdx newIdx : Nat),
      ∀ pr ∈ pairedGo dw changes oldIdx newIdx bl al, PairedDefensive bl al pr := by
  intro changes
  induction changes with
  | nil =>
      intro oldIdx newIdx pr hpr
      simp [pairedGo] at hpr
  | cons head tail ih =>
      intro oldIdx newIdx pr hpr
      cases head with
      | removed c =>
          cases tail with
          | nil =>
              simp only [pairedGo] at hpr
              rcases List.mem_append.1 hpr with hl | hr
              · obtain ⟨j, _, rfl⟩ := List.mem_map.1 hl
                exact removedRow_defensive bl al oldIdx j
              · simp [pairedGo] at hr
          | cons head2 tail2 =>
              cases head2 with
              | added ac =>
                  simp only [pairedGo] at hpr
                  rcases List.mem_append.1 hpr with hl | hr
                  · obtain ⟨j, _, rfl⟩ := List.mem_map.1 hl
                    exact pairRow_defensive dw bl al oldIdx newIdx c ac j
                  · apply ih (oldIdx + c) newIdx pr
                    simp only [pairedGo]
                    exact List.mem_append.2 (Or.inr hr)
              | removed c2 =>
                  simp only [pairedGo] at hpr
                  rcases List.mem_append.1 hpr with hl | hr
                  · obtain ⟨j, _, rfl⟩ := List.mem_map.1 hl
                    exact removedRow_defensive bl al oldIdx j
                  · exact ih (oldIdx + c) newIdx pr hr
              | unchanged c2 =>
                  simp only [pairedGo] at hpr
                  rcases List.mem_append.1 hpr with hl | hr
                  · obtain ⟨j, _, rfl⟩ := List.mem_map.1 hl
                    exact removedRow_defensive bl al oldIdx j
                  · exact ih (oldIdx + c) newIdx pr hr
      | added c =>
          simp only [pairedGo] at hpr
          rcases List.mem_append.1 hpr with hl | hr
          · obtain ⟨j, _, rfl⟩ := List.mem_map.1 hl
            exact addedRow_defensive bl al newIdx j
          · exact ih oldIdx (newIdx + c) pr hr
      | unchanged c =>
          simp only [pairedGo] at hpr
          rcases List.mem_append.1 hpr with hl | hr
          · obtain ⟨j, _, rfl⟩ := List.mem_map.1 hl
            exact contextRow_defensive bl al oldIdx newIdx j
          · exact ih (oldIdx + c) (newIdx + c) pr hr

theorem unifiedGo_defensive (bl al : List (List Char)) :
    ∀ (changes : List Hunk) (oldIdx newIdx : Nat),
      ∀ l ∈ unifiedGo changes oldIdx newIdx bl al, UnifiedDefensive bl al l := by
  intro changes
  induction changes with
  | nil =>
      intro oldIdx newIdx l hl
      simp [unifiedGo] at hl
  | cons head tail ih =>
      intro oldIdx newIdx l hml
      cases head with
      | removed c =>
          simp only [unifiedGo] at hml
          rcases List.mem_append.1 hml with h | h
          · obtain ⟨j, _, rfl⟩ := List.mem_map.1 h
            exact uDeleteRow_defensive bl al oldIdx j
          · exact ih (oldIdx + c) newIdx l h
      | added c =>
          simp only [unifiedGo] at hml
          rcases List.mem_append.1 hml with h | h
          · obtain ⟨j, _, rfl⟩ := List.mem_map.1 h
            exact uAddRow_defensive bl al newIdx j
          · exact ih oldIdx (newIdx + c) l h
      | unchanged c =>
          simp only [unifiedGo] at hml
          rcases List.mem_append.1 hml with h | h
          · obtain ⟨j, _, rfl⟩ := List.mem_map.1 h
            exact uContextRow_defensive bl al oldIdx newIdx j
          · exact ih (oldIdx + c) (newIdx + c) l h

/-- Claim C8: for every hunk list, even one whose counts disagree with
the actual number of lines, the Pairing Aligner and Unified Formatter are
total and each out-of-bounds line access substitutes the empty string for
that line's content in the emitted row; every emitted content is either a
real source line or empty. -/
theorem diff_renderers_defensive (dl : List Char → List Char → List Hunk)
    (dw : List Char → List Char → List WordSeg) (before after : List Char) :
    (∀ pr ∈ computePairedLines dl dw before after,
      PairedDefensive (splitNl before) (splitNl after) pr) ∧
    (∀ l ∈ computeUnifiedLines dl before after,
      UnifiedDefensive (splitNl before) (splitNl after) l) :=
  ⟨pairedGo_defensive dw (splitNl before) (splitNl after) (dl before after) 0 0,
    unifiedGo_defensive (splitNl before) (splitNl after) (dl before after) 0 0⟩

/-- Witness for C8 on a malformed hunk list (a removed hunk of 3 lines
against a 1-line text): the second emitted row is out of bounds and
carries the empty string. -/
theorem diff_renderers_defensive_witness :
    (PairedLine.mk (DiffLine.mk .delete [] (some 2) none) emptyCell ∈
      computePairedLines (fun _ _ => [Hunk.removed 3]) (fun _ _ => []) "a".data []) ∧
    PairedDefensive (splitNl "a".data) (splitNl [])
      (PairedLine.mk (DiffLine.mk .delete [] (some 2) none) emptyCell) :=
  ⟨by decide,
    (diff_renderers_defensive (fun _ _ => [Hunk.removed 3]) (fun _ _ => [])
      "a".data []).1 _ (by decide)⟩

theorem stripSubGo_fuel (pat : List Char) :
    ∀ (f1 f2 : Nat) (l : List Char), l.length ≤ f1 → l.length ≤ f2 →
      stripSubGo pat f1 l = stripSubGo pat f2 l
  | f1, f2, [], _, _ => by
      cases f1 <;> cases f2 <;> rfl
  | 0, _, c :: rest, h1, _ => by
      simp at h1
  | _ + 1, 0, c :: rest, _, h2 => by
      simp at h2
  | f1 + 1, f2 + 1, c :: rest, h1, h2 => by
      simp only [stripSubGo]
      by_cases hp : pat.isPrefixOf (c :: rest) = true
      · rw [if_pos hp, if_pos hp]
        exact stripSubGo_fuel pat f1 f2 (rest.drop (pat.length - 1))
          (by simp only [List.length_drop] at *; simp at h1; omega)
          (by simp only [List.length_drop] at *; simp at h2; omega)
      · rw [if_neg hp, if_neg hp]
        rw [stripSubGo_fuel pat f1 f2 rest (by simp at h1; omega) (by simp at h2; omega)]

theorem stripSub_nil (pat : List Char) : stripSub pat [] = [] := rfl

theorem stripSub_cons_of_prefix (pat : List Char) (c : Char) (rest : List Char)
    (h : pat.isPrefixOf (c :: rest) = true) :
    stripSub pat (c :: rest) = stripSub pat (rest.drop (pat.length - 1)) := by
  unfold stripSub
  simp only [List.length_cons, stripSubGo, h, if_true]
  exact stripSubGo_fuel pat rest.length (rest.drop (pat.length - 1)).length
    (rest.drop (pat.length - 1)) (by simp only [List.length_drop]; omega) (Nat.le_refl _)

theorem stripSub_cons_of_not_prefix (pat : List Char) (c : Char) (rest : List Char)
    (h : pat.isPrefixOf (c :: rest) = false) :
    stripSub pat (c :: rest) = c :: stripSub pat rest := by
  unfold stripSub
  simp only [List.length_cons, stripSubGo, h, Bool.false_eq_true, if_false]

theorem stripSub_append_of_no_lt (pat : List Char) (hp : pat.head? = some '<') :
    ∀ (a b : List Char), '<' ∉ a → stripSub pat (a ++ b) = a ++ stripSub pat b
  | [], _, _ => by simp
  | c :: a, b, hna => by
      have hc : c ≠ '<' := by
        intro h
        exact hna (h ▸ List.mem_cons_self c a)
      have hpre : pat.isPrefixOf ((c :: a) ++ b) = false := by
        cases pat with
        | nil => simp at hp
        | cons p0 ps =>
            simp only [Option.some.injEq, List.head?_cons] at hp
            subst hp
            simp only [List.cons_append, List.isPrefixOf, Bool.and_eq_false_iff]
            left
            exact beq_eq_false_iff_ne.2 (fun h => hc h.symm)
      rw [List.cons_append, stripSub_cons_of_not_prefix pat c (a ++ b) hpre,
        stripSub_append_of_no_lt pat hp a b (fun h => hna (List.mem_cons_of_mem c h))]
      rfl

theorem stripSub_append_self (pat b : List Char) (hp : pat ≠ []) :
    stripSub pat (pat ++ b) = stripSub pat b := by
  cases pat with
  | nil => exact absurd rfl hp
  | cons p0 ps =>
      have hpre : (p0 :: ps).isPrefixOf (p0 :: (ps ++ b)) = true := by
        rw [List.isPrefixOf_iff_prefix]
        exact List.prefix_append (p0 :: ps) b
      rw [List.cons_append, stripSub_cons_of_prefix (p0 :: ps) p0 (ps ++ b) hpre]
      congr 1
      simp only [List.length_cons, Nat.add_sub_cancel]
      exact List.drop_left ps b

theorem isPrefixOf_append_eq_false (p q : List Char) (k : Nat)
    (hkp : k ≤ p.length) (hkq : k ≤ q.length) (hne : p.take k ≠ q.take k)
    (b : List Char) : p.isPrefixOf (q ++ b) = false := by
  by_contra h
  rw [Bool.not_eq_false, List.isPrefixOf_iff_prefix] at h
  apply hne
  rw [List.prefix_iff_eq_take.1 h, List.take_take, min_eq_left hkp,
    List.take_append_of_le_length hkq]

theorem stripSub_skip_block (p q : List Char) (hq0 : q.head? = some '<')
    (hq1 : '<' ∉ q.tail) (hp : p.head? = some '<')
    (hnp : ∀ x, p.isPrefixOf (q ++ x) = false) (b : List Char) :
    stripSub p (q ++ b) = q ++ stripSub p b := by
  cases q with
  | nil => simp at hq0
  | cons q0 q' =>
      simp only [List.head?_cons, Option.some.injEq] at hq0
      subst hq0
      simp only [List.tail_cons] at hq1
      rw [List.cons_append, stripSub_cons_of_not_prefix p '<' (q' ++ b)
          (show p.isPrefixOf ('<' :: (q' ++ b)) = false from hnp b),
        stripSub_append_of_no_lt p hp q' b hq1]
      rfl

theorem replaceAll_append (t : Char) (r a b : List Char) :
    replaceAll t r (a ++ b) = replaceAll t r a ++ replaceAll t r b := by
  unfold replaceAll
  exact List.flatMap_append a b _

theorem escapeHtml_append (a b : List Char) :
    escapeHtml (a ++ b) = escapeHtml a ++ escapeHtml b := by
  unfold escapeHtml
  rw [replaceAll_append, replaceAll_append, replaceAll_append]

theorem lt_not_mem_replaceAll_lt (l : List Char) :
    '<' ∉ replaceAll '<' "&lt;".data l := by
  unfold replaceAll
  intro h
  obtain ⟨c, _, hmem⟩ := List.mem_flatMap.1 h
  by_cases hc : c = '<'
  · rw [if_pos hc] at hmem
    simp at hmem
  · rw [if_neg hc] at hmem
    simp at hmem
    exact hc hmem.symm

theorem lt_not_mem_replaceAll_gt (l : List Char) (h : '<' ∉ l) :
    '<' ∉ replaceAll '>' "&gt;".data l := by
  unfold replaceAll
  intro hmem
  obtain ⟨c, hcl, hcm⟩ := List.mem_flatMap.1 hmem
  by_cases hc : c = '>'
  · rw [if_pos hc] at hcm
    simp at hcm
  · rw [if_neg hc] at hcm
    simp at hcm
    exact h (hcm ▸ hcl)

theorem lt_not_mem_escapeHtml (v : List Char) : '<' ∉ escapeHtml v := by
  unfold escapeHtml
  exact lt_not_mem_replaceAll_gt _ (lt_not_mem_replaceAll_lt _)

theorem mR_head : markRemoved.head? = some '<' := by decide

theorem mA_head : markAdded.head? = some '<' := by decide

theorem mE_head : markEnd.head? = some '<' := by decide

theorem mR_ne_nil : markRemoved ≠ [] := by decide

theorem mA_ne_nil : markAdded ≠ [] := by decide

theorem mE_ne_nil : markEnd ≠ [] := by decide

theorem lt_not_mem_mE_tail : '<' ∉ markEnd.tail := by decide

theorem lt_not_mem_mA_tail : '<' ∉ markAdded.tail := by decide

theorem mR_not_prefixOf_mE (x : List Char) :
    markRemoved.isPrefixOf (markEnd ++ x) = false :=
  isPrefixOf_append_eq_false markRemoved markEnd 2 (by decide) (by decide) (by decide) x

theorem mA_not_prefixOf_mE (x : List Char) :
    markAdded.isPrefixOf (markEnd ++ x) = false :=
  isPrefixOf_append_eq_false markAdded markEnd 2 (by decide) (by decide) (by decide) x

theorem mR_not_prefixOf_mA (x : List Char) :
    markRemoved.isPrefixOf (markAdded ++ x) = false :=
  isPrefixOf_append_eq_false markRemoved markAdded 17 (by decide) (by decide) (by decide) x

theorem computeWordDiff_foldl :
    ∀ (segs : List WordSeg) (acc : List Char × List Char),
      List.foldl
        (fun acc change =>
          let escaped := escapeHtml change.value
          match change.kind with
          | .removed => (acc.1 ++ markRemoved ++ escaped ++ markEnd, acc.2)
          | .added => (acc.1, acc.2 ++ markAdded ++ escaped ++ markEnd)
          | .unchanged => (acc.1 ++ escaped, acc.2 ++ escaped))
        acc segs =
        (acc.1 ++ (segs.map leftPiece).flatten, acc.2 ++ (segs.map rightPiece).flatten)
  | [], acc => by simp
  | w :: segs, acc => by
      rw [List.foldl_cons, computeWordDiff_foldl segs]
      cases hk : w.kind <;>
        simp [leftPiece, rightPiece, hk, List.append_assoc]

theorem computeWordDiff_eq (segs : List WordSeg) :
    computeWordDiff segs = ((segs.map leftPiece).flatten, (segs.map rightPiece).flatten) := by
  unfold computeWordDiff
  rw [computeWordDiff_foldl segs ([], [])]
  simp

theorem strip_left_pass1 :
    ∀ segs : List WordSeg,
      stripSub markRemoved ((segs.map leftPiece).flatten) = (segs.map leftPiece1).flatten
  | [] => rfl
  | w :: segs => by
      cases hk : w.kind with
      | removed =>
          simp only [List.map_cons, List.flatten_cons, leftPiece, leftPiece1, hk,
            List.append_assoc]
          rw [stripSub_append_self markRemoved _ mR_ne_nil,
            stripSub_append_of_no_lt markRemoved mR_head _ _ (lt_not_mem_escapeHtml _),
            stripSub_skip_block markRemoved markEnd mE_head lt_not_mem_mE_tail mR_head
              mR_not_prefixOf_mE _,
            strip_left_pass1 segs]
      | added =>
          simp only [List.map_cons, List.flatten_cons, leftPiece, leftPiece1, hk,
            List.nil_append]
          exact strip_left_pass1 segs
      | unchanged =>
          simp only [List.map_cons, List.flatten_cons, leftPiece, leftPiece1, hk]
          rw [stripSub_append_of_no_lt markRemoved mR_head _ _ (lt_not_mem_escapeHtml _),
            strip_left_pass1 segs]

theorem strip_left_pass2 :
    ∀ segs : List WordSeg,
      stripSub markAdded ((segs.map leftPiece1).flatten) = (segs.map leftPiece1).flatten
  | [] => rfl
  | w :: segs => by
      cases hk : w.kind with
      | removed =>
          simp only [List.map_cons, List.flatten_cons, leftPiece1, hk, List.append_assoc]
          rw [stripSub_append_of_no_lt markAdded mA_head _ _ (lt_not_mem_escapeHtml _),
            stripSub_skip_block markAdded markEnd mE_head lt_not_mem_mE_tail mA_head
              mA_not_prefixOf_mE _,
            strip_left_pass2 segs]
      | added =>
          simp only [List.map_cons, List.flatten_cons, leftPiece1, hk, List.nil_append]
          exact strip_left_pass2 segs
      | unchanged =>
          simp only [List.map_cons, List.flatten_cons, leftPiece1, hk]
          rw [stripSub_append_of_no_lt markAdded mA_head _ _ (lt_not_mem_escapeHtml _),
            strip_left_pass2 segs]

theorem strip_left_pass3 :
    ∀ segs : List WordSeg,
      stripSub markEnd ((segs.map leftPiece1).flatten) = (segs.map leftKeep).flatten
  | [] => rfl
  | w :: segs => by
      cases hk : w.kind with
      | removed =>
          simp only [List.map_cons, List.flatten_cons, leftPiece1, leftKeep, hk,
            List.append_assoc]
          rw [stripSub_append_of_no_lt markEnd mE_head _ _ (lt_not_mem_escapeHtml _),
            stripSub_append_self markEnd _ mE_ne_nil,
            strip_left_pass3 segs]
      | added =>
          simp only [List.map_cons, List.flatten_cons, leftPiece1, leftKeep, hk,
            List.nil_append]
          exact strip_left_pass3 segs
      | unchanged =>
          simp only [List.map_cons, List.flatten_cons, leftPiece1, leftKeep, hk]
          rw [stripSub_append_of_no_lt markEnd mE_head _ _ (lt_not_mem_escapeHtml _),
            strip_left_pass3 segs]

theorem strip_right_pass1 :
    ∀ segs : List WordSeg,
      stripSub markRemoved ((segs.map rightPiece).flatten) = (segs.map rightPiece).flatten
  | [] => rfl
  | w :: segs => by
      cases hk : w.kind with
      | removed =>
          simp only [List.map_cons, List.flatten_cons, rightPiece, hk, List.nil_append]
          exact strip_right_pass1 segs
      | added =>
          simp only [List.map_cons, List.flatten_cons, rightPiece, hk, List.append_assoc]
          rw [stripSub_skip_block markRemoved markAdded mA_head lt_not_mem_mA_tail mR_head
              mR_not_prefixOf_mA _,
            stripSub_append_of_no_lt markRemoved mR_head _ _ (lt_not_mem_escapeHtml _),
            stripSub_skip_block markRemoved markEnd mE_head lt_not_mem_mE_tail mR_head
              mR_not_prefixOf_mE _,
            strip_right_pass1 segs]
      | unchanged =>
          simp only [List.map_cons, List.flatten_cons, rightPiece, hk]
          rw [stripSub_append_of_no_lt markRemoved mR_head _ _ (lt_not_mem_escapeHtml _),
            strip_right_pass1 segs]

theorem strip_right_pass2 :
    ∀ segs : List WordSeg,
      stripSub markAdded ((segs.map rightPiece).flatten) = (segs.map rightPiece2).flatten
  | [] => rfl
  | w :: segs => by
      cases hk : w.kind with
      | removed =>
          simp only [List.map_cons, List.flatten_cons, rightPiece, rightPiece2, hk,
            List.nil_append]
          exact strip_right_pass2 segs
      | added =>
          simp only [List.map_cons, List.flatten_cons, rightPiece, rightPiece2, hk,
            List.append_assoc]
          rw [stripSub_append_self markAdded _ mA_ne_nil,
            stripSub_append_of_no_lt markAdded mA_head _ _ (lt_not_mem_escapeHtml _),
            stripSub_skip_block markAdded markEnd mE_head lt_not_mem_mE_tail mA_head
              mA_not_prefixOf_mE _,
            strip_right_pass2 segs]
      | unchanged =>
          simp only [List.map_cons, List.flatten_cons, rightPiece, rightPiece2, hk]
          rw [stripSub_append_of_no_lt markAdded mA_head _ _ (lt_not_mem_escapeHtml _),
            strip_right_pass2 segs]

theorem strip_right_pass3 :
    ∀ segs : List WordSeg,
      stripSub markEnd ((segs.map rightPiece2).flatten) = (segs.map rightKeep).flatten
  | [] => rfl
  | w :: segs => by
      cases hk : w.kind with
      | removed =>
          simp only [List.map_cons, List.flatten_cons, rightPiece2, rightKeep, hk,
            List.nil_append]
          exact strip_right_pass3 segs
      | added =>
          simp only [List.map_cons, List.flatten_cons, rightPiece2, rightKeep, hk,
            List.append_assoc]
          rw [stripSub_append_of_no_lt markEnd mE_head _ _ (lt_not_mem_escapeHtml _),
            stripSub_append_self markEnd _ mE_ne_nil,
            strip_right_pass3 segs]
      | unchanged =>
          simp only [List.map_cons, List.flatten_cons, rightPiece2, rightKeep, hk]
          rw [stripSub_append_of_no_lt markEnd mE_head _ _ (lt_not_mem_escapeHtml _),
            strip_right_pass3 segs]

theorem stripMarks_left (segs : List WordSeg) :
    stripMarks (computeWordDiff segs).1 = (segs.map leftKeep).flatten := by
  rw [computeWordDiff_eq]
  unfold stripMarks
  rw [strip_left_pass1, strip_left_pass2, strip_left_pass3]

theorem stripMarks_right (segs : List WordSeg) :
    stripMarks (computeWordDiff segs).2 = (segs.map rightKeep).flatten := by
  rw [computeWordDiff_eq]
  unfold stripMarks
  rw [strip_right_pass1, strip_right_pass2, strip_right_pass3]

theorem flatten_leftKeep :
    ∀ segs : List WordSeg,
      (segs.map leftKeep).flatten =
        escapeHtml (((segs.filter (fun w => w.kind != .added)).map
          (fun w => w.value)).flatten)
  | [] => rfl
  | w :: segs => by
      cases hk : w.kind with
      | added =>
          simp only [List.map_cons, List.flatten_cons, leftKeep, hk, List.filter_cons,
            List.nil_append]
          simp only [hk, bne_self_eq_false, if_false, Bool.false_eq_true]
          exact flatten_leftKeep segs
      | removed =>
          simp only [List.map_cons, List.flatten_cons, leftKeep, hk, List.filter_cons]
          rw [show (SegKind.removed != SegKind.added) = true from rfl]
          simp only [if_true, List.map_cons, List.flatten_cons]
          rw [escapeHtml_append, flatten_leftKeep segs]
      | unchanged =>
          simp only [List.map_cons, List.flatten_cons, leftKeep, hk, List.filter_cons]
          rw [show (SegKind.unchanged != SegKind.added) = true from rfl]
          simp only [if_true, List.map_cons, List.flatten_cons]
          rw [escapeHtml_append, flatten_leftKeep segs]

theorem flatten_rightKeep :
    ∀ segs : List WordSeg,
      (segs.map rightKeep).flatten =
        escapeHtml (((segs.filter (fun w => w.kind != .removed)).map
          (fun w => w.value)).flatten)
  | [] => rfl
  | w :: segs => by
      cases hk : w.kind with
      | removed =>
          simp only [List.map_cons, List.flatten_cons, rightKeep, hk, List.filter_cons,
            List.nil_append]
          simp only [hk, bne_self_eq_false, if_false, Bool.false_eq_true]
          exact flatten_rightKeep segs
      | added =>
          simp only [List.map_cons, List.flatten_cons, rightKeep, hk, List.filter_cons]
          rw [show (SegKind.added != SegKind.removed) = true from rfl]
          simp only [if_true, List.map_cons, List.flatten_cons]
          rw [escapeHtml_append, flatten_rightKeep segs]
      | unchanged =>
          simp only [List.map_cons, List.flatten_cons, rightKeep, hk, List.filter_cons]
          rw [show (SegKind.unchanged != SegKind.removed) = true from rfl]
          simp only [if_true, List.map_cons, List.flatten_cons]
          rw [escapeHtml_append, flatten_rightKeep segs]

/-- Claim C4, amended: for any word-diff segment list that reconstructs
(oldLine, newLine), removing all marker tags from the left output of
`computeWordDiff` yields exactly `escapeHtml oldLine` (the HTML-escaped
old line), and from the right output `escapeHtml newLine`; for lines
containing none of the characters `&`, `<`, `>` this is exactly the
original line.  (The unamended claim fails because segment text is
HTML-escaped before the markers are applied; see the counterexample.) -/
theorem computeWordDiff_strip_escaped (segs : List WordSeg) (oldLine newLine : List Char)
    (h : validWordDiff segs oldLine newLine = true) :
    stripMarks (computeWordDiff segs).1 = escapeHtml oldLine ∧
    stripMarks (computeWordDiff segs).2 = escapeHtml newLine := by
  unfold validWordDiff at h
  rw [Bool.and_eq_true, beq_iff_eq, beq_iff_eq] at h
  obtain ⟨h1, h2⟩ := h
  constructor
  · rw [stripMarks_left, flatten_leftKeep, h1]
  · rw [stripMarks_right, flatten_rightKeep, h2]

/-- Witness for the amended C4 on a concrete word diff. -/
theorem computeWordDiff_strip_escaped_witness :
    validWordDiff [WordSeg.mk "a ".data .unchanged, WordSeg.mk "b".data .removed,
        WordSeg.mk "c".data .added] "a b".data "a c".data = true ∧
    (stripMarks (computeWordDiff [WordSeg.mk "a ".data .unchanged,
        WordSeg.mk "b".data .removed, WordSeg.mk "c".data .added]).1 =
      escapeHtml "a b".data ∧
     stripMarks (computeWordDiff [WordSeg.mk "a ".data .unchanged,
        WordSeg.mk "b".data .removed, WordSeg.mk "c".data .added]).2 =
      escapeHtml "a c".data) :=
  ⟨by decide,
    computeWordDiff_strip_escaped
      [WordSeg.mk "a ".data .unchanged, WordSeg.mk "b".data .removed,
        WordSeg.mk "c".data .added] "a b".data "a c".data (by decide)⟩

/-- Counterexample to claim C4 as stated: for the valid word diff of
("<", "x"), stripping all marker tags from the left output yields
"&lt;", not "<". -/
theorem computeWordDiff_strip_not_oldLine :
    validWordDiff [WordSeg.mk "<".data .removed, WordSeg.mk "x".data .added]
      "<".data "x".data = true ∧
    stripMarks (computeWordDiff [WordSeg.mk "<".data .removed,
      WordSeg.mk "x".data .added]).1 ≠ "<".data := by
  constructor
  · decide
  · decide

theorem isPrefixOf_single_eq (p c : Char) (t : List Char) :
    ([p]).isPrefixOf (c :: t) = (p == c) := by
  simp [List.isPrefixOf]

theorem extract_foldl :
    ∀ (lines : List (List Char)) (acc : List Char × List Char),
      List.foldl
        (fun (acc : List Char × List Char) line =>
          if skipLine line then acc
          else if startsWithL "-" line then (acc.1 ++ line.tail ++ ['\n'], acc.2)
          else if startsWithL "+" line then (acc.1, acc.2 ++ line.tail ++ ['\n'])
          else if startsWithL " " line then
            (acc.1 ++ line.tail ++ ['\n'], acc.2 ++ line.tail ++ ['\n'])
          else acc)
        acc lines =
      (acc.1 ++ (lines.map (fun l =>
          if skipLine l then [] else if startsWithL "-" l then l.tail ++ ['\n']
          else if startsWithL "+" l then [] else if startsWithL " " l then l.tail ++ ['\n']
          else [])).flatten,
        acc.2 ++ (lines.map (fun l =>
          if skipLine l then [] else if startsWithL "-" l then []
          else if startsWithL "+" l then l.tail ++ ['\n']
          else if startsWithL " " l then l.tail ++ ['\n']
          else [])).flatten)
  | [], acc => by simp
  | l :: lines, acc => by
      rw [List.foldl_cons, extract_foldl lines]
      by_cases h0 : skipLine l
      · simp [h0]
      · by_cases h1 : startsWithL "-" l
        · simp [h0, h1, List.append_assoc]
        · by_cases h2 : startsWithL "+" l
          · simp [h0, h1, h2, List.append_assoc]
          · by_cases h3 : startsWithL " " l
            · simp [h0, h1, h2, h3, List.append_assoc]
            · simp [h0, h1, h2, h3]

theorem contribB_eq (l : List Char) :
    (if skipLine l then [] else if startsWithL "-" l then l.tail ++ ['\n']
     else if startsWithL "+" l then [] else if startsWithL " " l then l.tail ++ ['\n']
     else []) =
    (if (!skipLine l && (startsWithL "-" l || startsWithL " " l)) = true
      then l.tail ++ ['\n'] else []) := by
  by_cases hs : skipLine l
  · simp [hs]
  · cases l with
    | nil => rfl
    | cons c t =>
        have e1 : startsWithL "-" (c :: t) = ('-' == c) := isPrefixOf_single_eq '-' c t
        have e2 : startsWithL "+" (c :: t) = ('+' == c) := isPrefixOf_single_eq '+' c t
        have e3 : startsWithL " " (c :: t) = (' ' == c) := isPrefixOf_single_eq ' ' c t
        simp only [hs, Bool.false_eq_true, if_false, Bool.not_false, Bool.true_and, e1, e2, e3]
        by_cases h1 : ('-' == c) = true
        · simp [h1]
        · simp only [h1, Bool.false_eq_true, if_false, Bool.false_or]
          by_cases h2 : ('+' == c) = true
          · have h3 : (' ' == c) = false := by
              rw [beq_iff_eq] at h2
              subst h2
              decide
            simp [h2, h3]
          · by_cases h4 : (' ' == c) = true <;> simp [h2, h4]

theorem contribA_eq (l : List Char) :
    (if skipLine l then [] else if startsWithL "-" l then []
     else if startsWithL "+" l then l.tail ++ ['\n']
     else if startsWithL " " l then l.tail ++ ['\n']
     else []) =
    (if (!skipLine l && (startsWithL "+" l || startsWithL " " l)) = true
      then l.tail ++ ['\n'] else []) := by
  by_cases hs : skipLine l
  · simp [hs]
  · cases l with
    | nil => rfl
    | cons c t =>
        have e1 : startsWithL "-" (c :: t) = ('-' == c) := isPrefixOf_single_eq '-' c t
        have e2 : startsWithL "+" (c :: t) = ('+' == c) := isPrefixOf_single_eq '+' c t
        have e3 : startsWithL " " (c :: t) = (' ' == c) := isPrefixOf_single_eq ' ' c t
        simp only [hs, Bool.false_eq_true, if_false, Bool.not_false, Bool.true_and, e1, e2, e3]
        by_cases h1 : ('-' == c) = true
        · have h2 : ('+' == c) = false := by
            rw [beq_iff_eq] at h1
            subst h1
            decide
          have h3 : (' ' == c) = false := by
            rw [beq_iff_eq] at h1
            subst h1
            decide
          simp [h1, h2, h3]
        · simp only [h1, Bool.false_eq_true, if_false]
          by_cases h2 : ('+' == c) = true
          · simp [h2]
          · simp only [h2, Bool.false_eq_true, if_false, Bool.false_or]

theorem flatten_if_filter (p : List Char → Bool) (f : List Char → List Char) :
    ∀ lines : List (List Char),
      (lines.map (fun l => if p l = true then f l else [])).flatten =
        ((lines.filter p).map f).flatten
  | [] => rfl
  | l :: lines => by
      by_cases hp : p l <;>
        simp [List.filter_cons, hp, flatten_if_filter p f lines]

theorem flatten_map_append_nl :
    ∀ (ps : List (List Char)), ps ≠ [] →
      (ps.map (fun x => x ++ ['\n'])).flatten = List.intercalate ['\n'] ps ++ ['\n']
  | [], h => absurd rfl h
  | [p], _ => by simp [List.intercalate]
  | p :: q :: ps, _ => by
      have ih := flatten_map_append_nl (q :: ps) (by simp)
      simp only [List.map_cons, List.flatten_cons] at ih ⊢
      rw [ih]
      show _ = List.intercalate ['\n'] (p :: q :: ps) ++ ['\n']
      rw [show List.intercalate ['\n'] (p :: q :: ps) =
          p ++ ['\n'] ++ List.intercalate ['\n'] (q :: ps) from by
        simp [List.intercalate, List.intersperse]]
      simp [List.append_assoc]

theorem trimEnd_append_nl (x : List Char) : trimEnd (x ++ ['\n']) = trimEnd x := by
  unfold trimEnd
  rw [List.reverse_append]
  simp only [List.reverse_cons, List.reverse_nil, List.nil_append, List.singleton_append]
  rw [List.dropWhile_cons_of_pos (by decide)]

theorem trimEnd_flatten_payload (ps : List (List Char)) :
    trimEnd ((ps.map (fun x => x ++ ['\n'])).flatten) =
      trimEnd (List.intercalate ['\n'] ps) := by
  cases hps : ps with
  | nil => rfl
  | cons p ps2 =>
      rw [flatten_map_append_nl (p :: ps2) (by simp), trimEnd_append_nl]

/-- Claim C10: `extractContentFromUnifiedDiff` returns exactly the pair
described by the claim: newline-joined payloads of the '-'/' ' lines
(before) and of the '+'/' ' lines (after), with the header/metadata lines
skipped entirely and trailing whitespace trimmed. -/
theorem extractContentFromUnifiedDiff_eq_spec (diff : List Char) :
    extractContentFromUnifiedDiff diff = extractSpec diff := by
  simp only [extractContentFromUnifiedDiff, extractSpec]
  rw [extract_foldl (splitNl diff) ([], [])]
  simp only [List.nil_append]
  rw [List.map_congr_left (fun l _ => contribB_eq l),
    List.map_congr_left (fun l _ => contribA_eq l),
    flatten_if_filter (fun l => !skipLine l && (startsWithL "-" l || startsWithL " " l))
      (fun l => l.tail ++ ['\n']) (splitNl diff),
    flatten_if_filter (fun l => !skipLine l && (startsWithL "+" l || startsWithL " " l))
      (fun l => l.tail ++ ['\n']) (splitNl diff)]
  rw [show ((splitNl diff).filter
        (fun l => !skipLine l && (startsWithL "-" l || startsWithL " " l))).map
        (fun l => l.tail ++ ['\n']) =
      (((splitNl diff).filter
        (fun l => !skipLine l && (startsWithL "-" l || startsWithL " " l))).map
        List.tail).map (fun x => x ++ ['\n']) from by rw [List.map_map]; rfl]
  rw [show ((splitNl diff).filter
        (fun l => !skipLine l && (startsWithL "+" l || startsWithL " " l))).map
        (fun l => l.tail ++ ['\n']) =
      (((splitNl diff).filter
        (fun l => !skipLine l && (startsWithL "+" l || startsWithL " " l))).map
        List.tail).map (fun x => x ++ ['\n']) from by rw [List.map_map]; rfl]
  rw [trimEnd_flatten_payload, trimEnd_flatten_payload]
